import Mathlib

/-!
Verification of the checkpoint-conversion pipeline (`convert_model` in
`src/utils.py`) of the prime-pipeline repository.

The pipeline loads a shard index, merges shard files into one name-to-tensor
mapping, renames the weights by a static table, permutes the attention
query/key projection weights, fuses query/key/value projections into one
tensor per layer, and writes a single consolidated checkpoint.

The embedding below models:
  * tensors as row-major flat integer data plus a shape (`Tensor`);
  * Python dicts as insertion-ordered association lists (`Bag`) with
    Python-dict update/delete/lookup semantics;
  * Python string operations used by the source (`in` containment,
    `str.replace`, `re.sub` of digit runs, `re.search` of the first digit
    run) as executable functions on character lists;
  * raised Python exceptions as `Except Err`.
-/

/-- Python exceptions raised by `convert_model`, by construct:
`keyError s` models `KeyError(s)` from a dict lookup (the spec's
`UnknownWeightKeyError`), `attributeError` models the `AttributeError` from
`re.search(...).group(0)` when `re.search` returned `None`, `runtimeError`
models the `RuntimeError` torch raises on an invalid `view`/`reshape`/`cat`,
`noModelMap` models `Exception("No model map found!")` (the spec's
`MissingIndexError`), and `shardLoadError` models failure to open a shard
file referenced by the index. -/
inductive Err where
  | keyError : String → Err
  | attributeError : Err
  | runtimeError : Err
  | noModelMap : Err
  | shardLoadError : Err
deriving DecidableEq, Repr

/-- A tensor: a shape and row-major flat data.  Element values are modelled
as integers (the pipeline never inspects or computes with element values;
it only moves them). -/
structure Tensor where
  shape : List Nat
  data : List Int
deriving DecidableEq, Repr

/-- A Python dict from weight-key strings to tensors, in insertion order. -/
abbrev Bag := List (String × Tensor)

/-- `ModelArgs.from_name` lives outside `src/`.  Modelled from the spec:
the Arch Config Provider supplies, per model name, the dimensions needed
for layout conversion (`{model_name, dim, head_dim, n_head,
n_local_heads}`); the claims supply concrete values directly. -/
structure ModelArgs where
  model_name : String
  dim : Nat
  head_dim : Nat
  n_head : Nat
  n_local_heads : Nat
deriving DecidableEq, Repr

/-- The keys of a dict, in insertion order (Python `tuple(d.keys())`). -/
def bagKeys (b : Bag) : List String := b.map Prod.fst

/-- Python dict lookup `d[k]` (as an `Option`): the value of the unique
entry with key `k`. -/
def dget? (b : Bag) (k : String) : Option Tensor :=
  (b.find? (fun p => decide (p.1 = k))).map Prod.snd

/-- Python dict write `d[k] = v`: overwrite in place if the key is present
(keeping its position), else append a new entry. -/
def dinsert (b : Bag) (k : String) (v : Tensor) : Bag :=
  if k ∈ bagKeys b then
    b.map (fun p => if p.1 = k then (k, v) else p)
  else
    b ++ [(k, v)]

/-- Python dict delete `del d[k]`. -/
def derase (b : Bag) (k : String) : Bag :=
  b.filter (fun p => decide (p.1 ≠ k))

/-- Dict lookup raising `KeyError(k)` when the key is absent. -/
def getE (b : Bag) (k : String) : Except Err Tensor :=
  match dget? b k with
  | some v => .ok v
  | none => .error (.keyError k)

/-- Sum of element counts of all tensors in a bag. -/
def totalCount (b : Bag) : Nat := (b.map (fun p => p.2.data.length)).sum

/-- Does `pat` occur as a contiguous substring of `l`?  Models Python's
`pat in s` for strings, scanning left to right. -/
def containsSubL (pat : List Char) : List Char → Bool
  | [] => pat.isEmpty
  | c :: rest => pat.isPrefixOf (c :: rest) || containsSubL pat rest

/-- Python `pat in s`. -/
def strContains (s pat : String) : Bool := containsSubL pat.data s.data

/-- Fuel-driven core of Python `str.replace`: replace each non-overlapping
occurrence of `pat` (nonempty) by `rep`, scanning left to right and
resuming after a replaced occurrence.  `fuel` bounds the recursion; it is
always called with `fuel = l.length`, which suffices because every step
consumes at least one character of `l`. -/
def replaceGo (pat rep : List Char) : Nat → List Char → List Char
  | 0, l => l
  | _ + 1, [] => []
  | fuel + 1, c :: rest =>
    if pat ≠ [] ∧ pat.isPrefixOf (c :: rest) then
      rep ++ replaceGo pat rep fuel ((c :: rest).drop pat.length)
    else
      c :: replaceGo pat rep fuel rest

/-- Python `s.replace(pat, rep)` (all occurrences, left to right,
non-overlapping). -/
def pyReplace (s pat rep : String) : String :=
  ⟨replaceGo pat.data rep.data s.data.length s.data⟩

/-- State machine for `re.sub(r"(\d+)", "\x7b\x7d", key)`: replace every
maximal run of decimal digits by the two characters `\x7b\x7d`.  `inRun`
records whether the previous character was a digit (in which case further
digits belong to the already-replaced run). -/
def subDigitsGo (inRun : Bool) : List Char → List Char
  | [] => []
  | c :: rest =>
    if c.isDigit then
      if inRun then subDigitsGo true rest
      else Char.ofNat 123 :: Char.ofNat 125 :: subDigitsGo true rest
    else
      c :: subDigitsGo false rest

/-- `re.sub(r"(\d+)", "\x7b\x7d", key)`: the key with every maximal digit
run abstracted to the `\x7b\x7d` placeholder. -/
def subDigits (s : String) : String := ⟨subDigitsGo false s.data⟩

/-- `re.search(r"\d+", key)`: the first maximal run of digits of `key`,
or `none` when the key contains no digit. -/
def firstRunL : List Char → Option (List Char)
  | [] => none
  | c :: rest =>
    if c.isDigit then some (c :: rest.takeWhile Char.isDigit)
    else firstRunL rest

/-- String form of `firstRunL`. -/
def firstRun (s : String) : Option String := (firstRunL s.data).map (fun l => ⟨l⟩)

/-- The static `weight_map` table of `convert_model` (src/utils.py lines
119-133), verbatim; `none` is the discard sentinel (`None`). -/
def weight_map : List (String × Option String) :=
  [ ("model.embed_tokens.weight", some "tok_embeddings.weight"),
    ("model.layers.\x7b\x7d.self_attn.q_proj.weight", some "layers.\x7b\x7d.attention.wq.weight"),
    ("model.layers.\x7b\x7d.self_attn.k_proj.weight", some "layers.\x7b\x7d.attention.wk.weight"),
    ("model.layers.\x7b\x7d.self_attn.v_proj.weight", some "layers.\x7b\x7d.attention.wv.weight"),
    ("model.layers.\x7b\x7d.self_attn.o_proj.weight", some "layers.\x7b\x7d.attention.wo.weight"),
    ("model.layers.\x7b\x7d.self_attn.rotary_emb.inv_freq", none),
    ("model.layers.\x7b\x7d.mlp.gate_proj.weight", some "layers.\x7b\x7d.feed_forward.w1.weight"),
    ("model.layers.\x7b\x7d.mlp.up_proj.weight", some "layers.\x7b\x7d.feed_forward.w3.weight"),
    ("model.layers.\x7b\x7d.mlp.down_proj.weight", some "layers.\x7b\x7d.feed_forward.w2.weight"),
    ("model.layers.\x7b\x7d.input_layernorm.weight", some "layers.\x7b\x7d.attention_norm.weight"),
    ("model.layers.\x7b\x7d.post_attention_layernorm.weight", some "layers.\x7b\x7d.ffn_norm.weight"),
    ("model.norm.weight", some "norm.weight"),
    ("lm_head.weight", some "output.weight") ]

/-- Lookup in the `weight_map` table (Python `weight_map[k]`, as an
`Option`: `none` means the table has no rule, `some none` a discard rule,
`some (some t)` a rewrite rule). -/
def wmFind? (k : String) : Option (Option String) :=
  (weight_map.find? (fun p => decide (p.1 = k))).map Prod.snd

/-- The `\x7b\x7d` placeholder string. -/
def placeholder : String := "\x7b\x7d"

/-- The new key computed for one merged key by the remap loop of
`convert_model` (src/utils.py lines 149-158): if the key contains
`"layers"`, abstract every digit run to the placeholder, capture the first
digit run as the layer index (raising `AttributeError` if there is none),
look the abstracted key up in `weight_map` (raising `KeyError` of the
abstracted key if no rule exists) and, unless the rule is the discard
sentinel, instantiate the target pattern with the captured index
(`str.format`, modelled as replacing the single placeholder occurrence);
otherwise look the key itself up in `weight_map` (raising `KeyError` of
the key).  `.ok none` means the key is discarded.

The literal (non-`"layers"`) branch of the source assigns
`weight_map[key]` without a `None` check; no literal rule of the table is
`None` (see `wm_literal_not_discard` below), so that branch can never see
the discard sentinel and `.ok none` there is unreachable. -/
def remapKey (key : String) : Except Err (Option String) :=
  if strContains key "layers" then
    match firstRun key with
    | none => .error .attributeError
    | some layerNum =>
      match wmFind? (subDigits key) with
      | none => .error (.keyError (subDigits key))
      | some none => .ok none
      | some (some pat) => .ok (some (pyReplace pat placeholder layerNum))
  else
    match wmFind? key with
    | none => .error (.keyError key)
    | some none => .ok none
    | some (some t) => .ok (some t)

/-- One step of the remap loop: compute the new key for `p` and insert the
tensor under it (or skip it when discarded). -/
def remapStep (acc : Bag) (p : String × Tensor) : Except Err Bag :=
  match remapKey p.1 with
  | .error e => .error e
  | .ok none => .ok acc
  | .ok (some nk) => .ok (dinsert acc nk p.2)

/-- The remap loop of `convert_model` (src/utils.py lines 148-160):
build `final_result` from `merged_result`. -/
def remap (merged : Bag) : Except Err Bag :=
  merged.foldlM remapStep []

/-- `w.view(a, b, c, d)`: reinterpret flat data as a 4-D tensor;
torch raises when the element count does not match. -/
def view4 (w : Tensor) (a b c d : Nat) : Except Err Tensor :=
  if w.data.length = a * b * c * d then .ok ⟨[a, b, c, d], w.data⟩
  else .error .runtimeError

/-- The row-major index map of `transpose(1, 2)` on a 4-D tensor of
shape `[a, b, c, d]`: the flat position `n` of the transposed tensor
(shape `[a, c, b, d]`) reads the flat position `tidx b c d n` of the
original.  Decomposing `n = ((i*c + k)*b + j)*d + l`, the source position
is `((i*b + j)*c + k)*d + l`. -/
def tidx (b c d n : Nat) : Nat :=
  (((n / d / b / c) * b + n / d % b) * c + n / d / b % c) * d + n % d

/-- `t.transpose(1, 2)` on a 4-D tensor of shape `[a, b, c, d]`,
materialised in row-major order: the element of the result at index
`(i, k, j, l)` (shape `[a, c, b, d]`) is the element of `t` at
`(i, j, k, l)`.  On non-4-D shapes (never reached here) it is the
identity. -/
def transpose12 (t : Tensor) : Tensor :=
  match t.shape with
  | [a, b, c, d] =>
    ⟨[a, c, b, d],
      (List.range (a * c * b * d)).map (fun n => t.data.getD (tidx b c d n) 0)⟩
  | _ => t

/-- `t.reshape(r, c)`: reinterpret (contiguous, row-major) data as an
`r × c` matrix; torch raises when the element count does not match. -/
def reshape2 (t : Tensor) (r c : Nat) : Except Err Tensor :=
  if t.data.length = r * c then .ok ⟨[r, c], t.data⟩
  else .error .runtimeError

/-- The `permute` helper of `convert_model` (src/utils.py lines 136-138):
`w.view(n_head, 2, config.head_dim // 2, config.dim).transpose(1, 2)
.reshape(config.head_dim * n_head, config.dim)`. -/
def permute (config : ModelArgs) (w : Tensor) (n_head : Nat) : Except Err Tensor :=
  match view4 w n_head 2 (config.head_dim / 2) config.dim with
  | .error e => .error e
  | .ok v => reshape2 (transpose12 v) (config.head_dim * n_head) config.dim

/-- `torch.cat([q, k, v])`: concatenation along the first (row) dimension.
The fused inputs are always matrices here, so the embedding is specialised
to 2-D shapes; torch raises when the trailing dimensions disagree. -/
def cat3 (q k v : Tensor) : Except Err Tensor :=
  match q.shape, k.shape, v.shape with
  | [r1, c1], [r2, c2], [r3, c3] =>
    if c2 = c1 ∧ c3 = c1 then
      .ok ⟨[r1 + r2 + r3, c1], q.data ++ k.data ++ v.data⟩
    else .error .runtimeError
  | _, _, _ => .error .runtimeError

/-- `key.replace("wq", "wk")`. -/
def wkOf (k : String) : String := pyReplace k "wq" "wk"

/-- `key.replace("wq", "wv")`. -/
def wvOf (k : String) : String := pyReplace k "wq" "wv"

/-- `key.replace("wq", "wqkv")`. -/
def wqkvOf (k : String) : String := pyReplace k "wq" "wqkv"

/-- The body of the fuse loop of `convert_model` (src/utils.py lines
162-172) for one snapshot key: if the key contains `"wq"`, look up the
query, key and value tensors (each lookup may raise `KeyError`), permute
the query weight with the full head count and the key weight with the
local head count, concatenate `[q, k, v]`, store the result under the
`wqkv` key, and delete the three original entries. -/
def fuseStep (config : ModelArgs) (b : Bag) (key : String) : Except Err Bag :=
  if strContains key "wq" then
    match getE b key with
    | .error e => .error e
    | .ok q =>
      match getE b (wkOf key) with
      | .error e => .error e
      | .ok k =>
        match getE b (wvOf key) with
        | .error e => .error e
        | .ok v =>
          match permute config q config.n_head with
          | .error e => .error e
          | .ok q1 =>
            match permute config k config.n_local_heads with
            | .error e => .error e
            | .ok k1 =>
              match cat3 q1 k1 v with
              | .error e => .error e
              | .ok fused =>
                .ok (derase (derase (derase (dinsert b (wqkvOf key) fused) key) (wkOf key)) (wvOf key))
  else .ok b

/-- The fuse loop of `convert_model`: iterate the loop body over the
snapshot `tuple(final_result.keys())` taken before the loop. -/
def fuse (config : ModelArgs) (b : Bag) : Except Err Bag :=
  (bagKeys b).foldlM (fuseStep config) b

/-- The remap and fuse stages composed: `merged_result` to the final
`final_result` that `convert_model` saves. -/
def convertCore (config : ModelArgs) (merged : Bag) : Except Err Bag :=
  match remap merged with
  | .error e => .error e
  | .ok b => fuse config b

/-- Python dict `d.update(other)`: insert every entry of `other` in
order. -/
def updateBag (acc d : Bag) : Bag :=
  d.foldl (fun a p => dinsert a p.1 p.2) acc

/-- The shard-merge loop of `convert_model` (src/utils.py lines 140-147):
merge the loaded shard dicts, in load order, into one bag; on key
collision the later-loaded shard wins. -/
def mergeBags (ds : List Bag) : Bag :=
  ds.foldl updateBag []

/-- The value produced for a key by folding the shard dicts in load order:
the tensor of the last shard providing the key, if any (the merge
policy "later-loaded shard wins"). -/
def lastWins (ds : List Bag) (k : String) : Option Tensor :=
  ds.foldl (fun r d => match dget? d k with | some v => some v | none => r) none

/-- `sorted(set(bin_files))` (src/utils.py lines 134 and 141): the distinct
shard file names referenced by the index, in ascending string order.
`sorted` is modelled by insertion sort (any sorting algorithm yields the
same, unique, sorted list). -/
def sortedFiles (fs : List String) : List String :=
  List.insertionSort (fun a b : String => a ≤ b) fs.dedup

/-- The input of one `convert_model` run, as far as the filesystem is
concerned: which of the two index files exist in the checkpoint directory,
the shard file names listed in the chosen index's `weight_map`, and the
contents of the shard files on disk. -/
structure ConvertInput where
  stIndex : Bool
  ptIndex : Bool
  indexFileNames : List String
  shardFiles : List (String × Bag)
  config : ModelArgs

/-- Index resolution (src/utils.py lines 96-114): try
`model.safetensors.index.json` first, fall back to
`pytorch_model.bin.index.json`, and raise `Exception("No model map
found!")` when neither exists. -/
def resolveIndex (inp : ConvertInput) : Except Err String :=
  if inp.stIndex then .ok "model.safetensors.index.json"
  else if inp.ptIndex then .ok "pytorch_model.bin.index.json"
  else .error .noModelMap

/-- Load one shard file's name-to-tensor dict from disk (the per-format
loaders both produce a plain dict; a missing file is a load error). -/
def loadShard (files : List (String × Bag)) (name : String) : Except Err Bag :=
  match files.find? (fun p => decide (p.1 = name)) with
  | some p => .ok p.2
  | none => .error .shardLoadError

/-- Load every distinct shard referenced by the index, in sorted-name
order. -/
def loadShards (inp : ConvertInput) : Except Err (List Bag) :=
  (sortedFiles inp.indexFileNames).mapM (loadShard inp.shardFiles)

/-- The whole `convert_model` run (src/utils.py lines 90-173), returning
the list of files written: index resolution, shard merge, remap, fuse,
then a single `torch.save` of the final bag to `model.pth`.  The write
happens last, so any raised exception aborts the run with no file
written.  (The write itself is a direct `torch.save` to the final path;
the tokenizer copy for llama-3 model names is out of the claims'
scope.) -/
def convert_model (inp : ConvertInput) : Except Err (List (String × Bag)) :=
  match resolveIndex inp with
  | .error e => .error e
  | .ok _ =>
    match loadShards inp with
    | .error e => .error e
    | .ok ds =>
      match convertCore inp.config (mergeBags ds) with
      | .error e => .error e
      | .ok final => .ok [("model.pth", final)]

/-- The target names produced by a successful remap, in insertion order:
one name per merged key whose rule is a rewrite (discarded keys contribute
nothing). -/
def okSomeNames (m : Bag) : List String :=
  m.filterMap (fun p =>
    match remapKey p.1 with
    | .ok (some t) => some t
    | _ => none)

/-- Total element count of the merged keys whose rule is the discard
sentinel. -/
def discardCount (m : Bag) : Nat :=
  (m.map (fun p =>
    match remapKey p.1 with
    | .ok none => p.2.data.length
    | _ => 0)).sum

/-- Decidable well-formedness of a remapped bag for the fuse loop: keys
are distinct, no `wqkv`-fused name collides with an existing key or with
the fused or derived (`wk`/`wv`) names of a different layer.  Every
checkpoint whose keys follow the canonical naming satisfies this; it rules
out adversarial bags in which the fuse loop's insert could overwrite an
unrelated entry. -/
def FuseFresh (b : Bag) : Prop :=
  (bagKeys b).Nodup ∧
  ∀ k ∈ bagKeys b, strContains k "wq" = true →
    wqkvOf k ∉ bagKeys b ∧
    ∀ k' ∈ bagKeys b, strContains k' "wq" = true → k' = k ∨
      (wqkvOf k' ≠ wqkvOf k ∧ wqkvOf k' ≠ wkOf k ∧ wqkvOf k' ≠ wvOf k)

instance (b : Bag) : Decidable (FuseFresh b) := by
  unfold FuseFresh
  infer_instance

/-- Keys still in split (un-fused) query/key/value-projection form. -/
def isSplitKey (k : String) : Bool :=
  strContains k "wq.weight" || strContains k "wk.weight" || strContains k "wv.weight"

/-- The configuration of the end-to-end fixture of the spec:
`dim=8, head_dim=4, n_head=2, n_local_heads=1`. -/
def cfgFix : ModelArgs := ⟨"fixture", 8, 4, 2, 1⟩

/-- A test tensor of the given shape whose elements count up from
`start`, so that element movement is observable. -/
def mkT (shape : List Nat) (start : Int) : Tensor :=
  ⟨shape, (List.range (shape.foldl (· * ·) 1)).map (fun n => start + Int.ofNat n)⟩

/-- The merged TensorBag of the end-to-end fixture: a query tensor of
shape (8,8), key and value tensors of shape (4,8), embedding, norm and
output-head tensors, an attention-output-projection tensor, and a
discard-marked rotary buffer. -/
def fixtureMerged : Bag :=
  [ ("model.embed_tokens.weight", mkT [3, 8] 1000),
    ("model.layers.0.self_attn.q_proj.weight", mkT [8, 8] 0),
    ("model.layers.0.self_attn.k_proj.weight", mkT [4, 8] 100),
    ("model.layers.0.self_attn.v_proj.weight", mkT [4, 8] 200),
    ("model.layers.0.self_attn.o_proj.weight", mkT [8, 8] 300),
    ("model.layers.0.self_attn.rotary_emb.inv_freq", ⟨[2], [9, 9]⟩),
    ("model.norm.weight", mkT [8] 400),
    ("lm_head.weight", mkT [3, 8] 500) ]

/-- A configuration with `head_dim = 8` (and one head, `dim = 1`), used to
exhibit that the head permutation is not self-inverse. -/
def cfg8 : ModelArgs := ⟨"hd8", 1, 8, 1, 1⟩

/-- A query-projection tensor of shape `(n_head * head_dim, dim) = (8, 1)`
for `cfg8`, with distinguishable elements. -/
def w8 : Tensor := ⟨[8, 1], [0, 1, 2, 3, 4, 5, 6, 7]⟩

/-- A merged bag holding only a key-projection weight (no query): the
remap succeeds and the fuse loop leaves the split key untouched. -/
def orphanMerged : Bag := [("model.layers.0.self_attn.k_proj.weight", mkT [4, 8] 0)]

/-- The fixture bag after the remap stage. -/
def fixtureRemapped : Bag := (remap fixtureMerged).toOption.getD []

/-- The fixture bag after remap and fuse (the consolidated checkpoint). -/
def fixtureFinal : Bag := (convertCore cfgFix fixtureMerged).toOption.getD []

/-- The fixture's permuted query weight. -/
def fixQperm : Tensor := (permute cfgFix (mkT [8, 8] 0) 2).toOption.getD ⟨[], []⟩

/-- The fixture's permuted key weight. -/
def fixKperm : Tensor := (permute cfgFix (mkT [4, 8] 100) 1).toOption.getD ⟨[], []⟩

/-- A checkpoint directory in which neither index file exists. -/
def inputNeither : ConvertInput := ⟨false, false, [], [], cfgFix⟩

/-- A checkpoint directory in which both index files exist. -/
def inputBoth : ConvertInput := ⟨true, true, ["s.safetensors"], [("s.safetensors", fixtureMerged)], cfgFix⟩

/-- A checkpoint directory in which only the legacy pytorch index
exists. -/
def inputPtOnly : ConvertInput := ⟨false, true, ["s.bin"], [("s.bin", fixtureMerged)], cfgFix⟩

deriving instance DecidableEq for Except

/-! ## Dict lemmas -/

theorem dget?_nil (k : String) : dget? [] k = none := rfl

theorem dget?_cons (p : String × Tensor) (b : Bag) (k : String) :
    dget? (p :: b) k = if p.1 = k then some p.2 else dget? b k := by
  by_cases h : p.1 = k <;> simp [dget?, List.find?_cons, h]

theorem mem_bagKeys (b : Bag) (k : String) :
    k ∈ bagKeys b ↔ ∃ p ∈ b, p.1 = k := by
  simp [bagKeys, List.mem_map, eq_comm]

theorem bagKeys_cons (p : String × Tensor) (b : Bag) :
    bagKeys (p :: b) = p.1 :: bagKeys b := rfl

theorem dget?_eq_none_iff (b : Bag) (k : String) :
    dget? b k = none ↔ k ∉ bagKeys b := by
  induction b with
  | nil => simp [dget?, bagKeys]
  | cons p rest ih =>
    rw [dget?_cons, bagKeys_cons]
    by_cases h : p.1 = k
    · simp [h]
    · simp only [h, if_false, ih, List.mem_cons, not_or]
      constructor
      · exact fun hh => ⟨fun he => h he.symm, hh⟩
      · exact fun hh => hh.2

theorem mem_bagKeys_of_dget? {b : Bag} {k : String} {t : Tensor}
    (h : dget? b k = some t) : k ∈ bagKeys b := by
  by_contra hk
  rw [← dget?_eq_none_iff] at hk
  rw [h] at hk
  cases hk

theorem dget?_map_update_self (b : Bag) (k : String) (v : Tensor)
    (hmem : k ∈ bagKeys b) :
    dget? (b.map (fun p => if p.1 = k then (k, v) else p)) k = some v := by
  induction b with
  | nil => simp [bagKeys] at hmem
  | cons p rest ih =>
    rw [List.map_cons]
    by_cases h : p.1 = k
    · simp [h, dget?_cons]
    · rw [if_neg h, dget?_cons, if_neg h]
      refine ih ?_
      rw [bagKeys_cons] at hmem
      rcases List.mem_cons.1 hmem with h1 | h1
      · exact absurd h1.symm h
      · exact h1

theorem dget?_map_update_ne (b : Bag) (k : String) (v : Tensor) (k' : String)
    (hne : k ≠ k') :
    dget? (b.map (fun p => if p.1 = k then (k, v) else p)) k' = dget? b k' := by
  induction b with
  | nil => simp
  | cons p rest ih =>
    rw [List.map_cons]
    by_cases h : p.1 = k
    · rw [if_pos h, dget?_cons, dget?_cons, if_neg hne, if_neg (h ▸ hne), ih]
    · rw [if_neg h, dget?_cons, dget?_cons, ih]

theorem dget?_append_single (b : Bag) (k : String) (v : Tensor) (k' : String)
    (hnot : k ∉ bagKeys b) :
    dget? (b ++ [(k, v)]) k' = if k = k' then some v else dget? b k' := by
  induction b with
  | nil => by_cases h : k = k' <;> simp [dget?_cons, dget?, h]
  | cons p rest ih =>
    rw [bagKeys_cons] at hnot
    have hpk : p.1 ≠ k := fun h => hnot (h ▸ List.mem_cons_self _ _)
    have hrest : k ∉ bagKeys rest := fun h => hnot (List.mem_cons_of_mem _ h)
    rw [List.cons_append, dget?_cons, dget?_cons, ih hrest]
    by_cases hp' : p.1 = k'
    · have : k ≠ k' := fun h => hpk (h ▸ hp')
      simp [hp', this]
    · simp [hp']

theorem dget?_dinsert (b : Bag) (k : String) (v : Tensor) (k' : String) :
    dget? (dinsert b k v) k' = if k = k' then some v else dget? b k' := by
  unfold dinsert
  by_cases hmem : k ∈ bagKeys b
  · rw [if_pos hmem]
    by_cases h : k = k'
    · subst h
      simp [dget?_map_update_self b k v hmem]
    · simp [h, dget?_map_update_ne b k v k' h]
  · rw [if_neg hmem]
    exact dget?_append_single b k v k' hmem

theorem dget?_dinsert_self (b : Bag) (k : String) (v : Tensor) :
    dget? (dinsert b k v) k = some v := by
  rw [dget?_dinsert]
  simp

theorem bagKeys_append (b c : Bag) :
    bagKeys (b ++ c) = bagKeys b ++ bagKeys c := by
  simp [bagKeys]

theorem bagKeys_dinsert_fresh (b : Bag) (k : String) (v : Tensor)
    (hnot : k ∉ bagKeys b) :
    bagKeys (dinsert b k v) = bagKeys b ++ [k] := by
  unfold dinsert
  rw [if_neg hnot, bagKeys_append]
  rfl

theorem totalCount_nil : totalCount [] = 0 := rfl

theorem totalCount_cons (p : String × Tensor) (b : Bag) :
    totalCount (p :: b) = p.2.data.length + totalCount b := by
  simp [totalCount]

theorem totalCount_dinsert_fresh (b : Bag) (k : String) (v : Tensor)
    (hnot : k ∉ bagKeys b) :
    totalCount (dinsert b k v) = totalCount b + v.data.length := by
  unfold dinsert
  rw [if_neg hnot]
  simp [totalCount]

theorem derase_cons (p : String × Tensor) (b : Bag) (k : String) :
    derase (p :: b) k = if p.1 = k then derase b k else p :: derase b k := by
  unfold derase
  rw [List.filter_cons]
  by_cases h : p.1 = k <;> simp [h]

theorem dget?_derase_self (b : Bag) (k : String) :
    dget? (derase b k) k = none := by
  induction b with
  | nil => rfl
  | cons p rest ih =>
    rw [derase_cons]
    by_cases h : p.1 = k
    · simpa [h] using ih
    · rw [if_neg h, dget?_cons, if_neg h]
      exact ih

theorem dget?_derase_ne (b : Bag) (k k' : String) (hne : k' ≠ k) :
    dget? (derase b k) k' = dget? b k' := by
  induction b with
  | nil => rfl
  | cons p rest ih =>
    rw [derase_cons, dget?_cons]
    by_cases h : p.1 = k
    · have hp' : p.1 ≠ k' := fun hh => hne (hh ▸ h)
      rw [if_pos h, if_neg hp', ih]
    · rw [if_neg h, dget?_cons, ih]

theorem bagKeys_derase (b : Bag) (k : String) :
    bagKeys (derase b k) = (bagKeys b).filter (fun x => decide (x ≠ k)) := by
  induction b with
  | nil => rfl
  | cons p rest ih =>
    rw [derase_cons, bagKeys_cons, List.filter_cons]
    by_cases h : p.1 = k
    · simp [h, ih]
    · simp [h, ih, bagKeys_cons]

theorem mem_bagKeys_derase (b : Bag) (k x : String) :
    x ∈ bagKeys (derase b k) ↔ x ∈ bagKeys b ∧ x ≠ k := by
  rw [bagKeys_derase]
  simp [List.mem_filter]

theorem nodup_bagKeys_derase (b : Bag) (k : String)
    (h : (bagKeys b).Nodup) : (bagKeys (derase b k)).Nodup := by
  rw [bagKeys_derase]
  exact h.filter _

theorem derase_of_not_mem (b : Bag) (k : String) (h : k ∉ bagKeys b) :
    derase b k = b := by
  unfold derase
  apply List.filter_eq_self.2
  intro q hq
  simp only [decide_eq_true_eq, ne_eq]
  intro hqk
  exact h ((mem_bagKeys b k).2 ⟨q, hq, hqk⟩)

theorem totalCount_derase (b : Bag) (k : String) (t : Tensor)
    (hnd : (bagKeys b).Nodup) (h : dget? b k = some t) :
    totalCount (derase b k) + t.data.length = totalCount b := by
  induction b with
  | nil => simp [dget?] at h
  | cons p rest ih =>
    rw [dget?_cons] at h
    rw [derase_cons]
    rw [bagKeys_cons, List.nodup_cons] at hnd
    by_cases hp : p.1 = k
    · rw [if_pos hp] at h ⊢
      have hkrest : k ∉ bagKeys rest := hp ▸ hnd.1
      rw [derase_of_not_mem rest k hkrest]
      cases h
      rw [totalCount_cons]
      omega
    · rw [if_neg hp] at h ⊢
      have := ih hnd.2 h
      rw [totalCount_cons, totalCount_cons]
      omega

theorem nodup_bagKeys_dinsert_fresh (b : Bag) (k : String) (v : Tensor)
    (hnot : k ∉ bagKeys b) (hnd : (bagKeys b).Nodup) :
    (bagKeys (dinsert b k v)).Nodup := by
  rw [bagKeys_dinsert_fresh b k v hnot]
  simpa [List.nodup_append] using ⟨hnd, fun h => hnot h⟩

/-! ## Substring lemmas -/

theorem containsSubL_nil_pat (l : List Char) : containsSubL [] l = true := by
  cases l <;> simp [containsSubL, List.isPrefixOf]

theorem containsSubL_append_left (pat l1 l2 : List Char)
    (h : containsSubL pat l1 = true) : containsSubL pat (l1 ++ l2) = true := by
  induction l1 with
  | nil =>
    simp only [containsSubL, List.isEmpty_iff] at h
    subst h
    exact containsSubL_nil_pat l2
  | cons c rest ih =>
    simp only [containsSubL, Bool.or_eq_true] at h
    rcases h with h | h
    · have hpre : pat <+: (c :: rest) := List.isPrefixOf_iff_prefix.1 h
      have : pat <+: (c :: rest) ++ l2 := hpre.trans (List.prefix_append _ _)
      simp only [List.cons_append, containsSubL, Bool.or_eq_true]
      exact Or.inl (List.isPrefixOf_iff_prefix.2 (by simpa using this))
    · simp only [List.cons_append, containsSubL, Bool.or_eq_true]
      exact Or.inr (ih h)

/-! ## Lemmas about `replaceGo` (Python `str.replace`) -/

theorem replaceGo_length_ge (pat rep : List Char) (hlen : pat.length ≤ rep.length) :
    ∀ (fuel : Nat) (l : List Char), l.length ≤ (replaceGo pat rep fuel l).length := by
  intro fuel
  induction fuel with
  | zero => intro l; simp [replaceGo]
  | succ fuel ih =>
    intro l
    match l with
    | [] => simp [replaceGo]
    | c :: rest =>
      rw [replaceGo]
      split
      · rename_i hcond
        have hple : pat.length ≤ (c :: rest).length :=
          (List.isPrefixOf_iff_prefix.1 hcond.2).length_le
        have hrec := ih ((c :: rest).drop pat.length)
        simp only [List.length_append, List.length_drop] at hrec ⊢
        have : ((c :: rest).drop pat.length).length = (c :: rest).length - pat.length := by
          simp [List.length_drop]
        omega
      · have hrec := ih rest
        simp only [List.length_cons]
        omega

theorem replaceGo_length_eq (pat rep : List Char) (hlen : pat.length = rep.length) :
    ∀ (fuel : Nat) (l : List Char), (replaceGo pat rep fuel l).length = l.length := by
  intro fuel
  induction fuel with
  | zero => intro l; simp [replaceGo]
  | succ fuel ih =>
    intro l
    match l with
    | [] => simp [replaceGo]
    | c :: rest =>
      rw [replaceGo]
      split
      · rename_i hcond
        have hple : pat.length ≤ (c :: rest).length :=
          (List.isPrefixOf_iff_prefix.1 hcond.2).length_le
        have hrec := ih ((c :: rest).drop pat.length)
        simp only [List.length_append, List.length_drop] at hrec ⊢
        omega
      · have hrec := ih rest
        simp only [List.length_cons]
        omega

theorem replaceGo_length_gt (pat rep : List Char) (hpat : pat ≠ [])
    (hlen : pat.length < rep.length) :
    ∀ (fuel : Nat) (l : List Char), l.length ≤ fuel → containsSubL pat l = true →
      l.length < (replaceGo pat rep fuel l).length := by
  intro fuel
  induction fuel with
  | zero =>
    intro l hf hc
    have : l = [] := List.length_eq_zero.1 (Nat.le_zero.1 hf)
    subst this
    simp only [containsSubL, List.isEmpty_iff] at hc
    exact absurd hc hpat
  | succ fuel ih =>
    intro l hf hc
    match l with
    | [] =>
      simp only [containsSubL, List.isEmpty_iff] at hc
      exact absurd hc hpat
    | c :: rest =>
      rw [replaceGo]
      split
      · rename_i hcond
        have hple : pat.length ≤ (c :: rest).length :=
          (List.isPrefixOf_iff_prefix.1 hcond.2).length_le
        have hrec := replaceGo_length_ge pat rep (le_of_lt hlen) fuel
          ((c :: rest).drop pat.length)
        simp only [List.length_append, List.length_drop] at hrec ⊢
        omega
      · rename_i hcond
        simp only [containsSubL, Bool.or_eq_true] at hc
        rcases hc with hpre | hrest
        · exact absurd ⟨hpat, hpre⟩ hcond
        · have hf' : rest.length ≤ fuel := by
            simp only [List.length_cons] at hf
            omega
          have hrec := ih rest hf' hrest
          simp only [List.length_cons]
          omega

theorem replaceGo_ne_self (pat rep : List Char) (hne : pat ≠ rep)
    (hlen : pat.length = rep.length) :
    ∀ (fuel : Nat) (l : List Char), l.length ≤ fuel → containsSubL pat l = true →
      replaceGo pat rep fuel l ≠ l := by
  have hpat : pat ≠ [] := by
    intro hnil
    subst hnil
    have : rep = [] := List.length_eq_zero.1 hlen.symm
    exact hne this.symm
  intro fuel
  induction fuel with
  | zero =>
    intro l hf hc
    have : l = [] := List.length_eq_zero.1 (Nat.le_zero.1 hf)
    subst this
    simp only [containsSubL, List.isEmpty_iff] at hc
    exact absurd hc hpat
  | succ fuel ih =>
    intro l hf hc
    match l with
    | [] =>
      simp only [containsSubL, List.isEmpty_iff] at hc
      exact absurd hc hpat
    | c :: rest =>
      rw [replaceGo]
      split
      · rename_i hcond
        intro heq
        have hpre : pat <+: (c :: rest) := List.isPrefixOf_iff_prefix.1 hcond.2
        obtain ⟨t, ht⟩ := hpre
        have ht' : (c :: rest) = pat ++ t := ht.symm
        rw [ht'] at heq
        have := List.append_inj heq (by omega)
        exact hne this.1.symm
      · rename_i hcond
        simp only [containsSubL, Bool.or_eq_true] at hc
        rcases hc with hpre | hrest
        · exact absurd ⟨hpat, hpre⟩ hcond
        · intro heq
          have hf' : rest.length ≤ fuel := by
            simp only [List.length_cons] at hf
            omega
          exact ih rest hf' hrest (List.cons.inj heq).2

theorem replaceGo_ne_replaceGo (pat rep1 rep2 : List Char) (hpat : pat ≠ [])
    (hne : rep1 ≠ rep2) (hlen : rep1.length = rep2.length) :
    ∀ (fuel : Nat) (l : List Char), l.length ≤ fuel → containsSubL pat l = true →
      replaceGo pat rep1 fuel l ≠ replaceGo pat rep2 fuel l := by
  intro fuel
  induction fuel with
  | zero =>
    intro l hf hc
    have : l = [] := List.length_eq_zero.1 (Nat.le_zero.1 hf)
    subst this
    simp only [containsSubL, List.isEmpty_iff] at hc
    exact absurd hc hpat
  | succ fuel ih =>
    intro l hf hc
    match l with
    | [] =>
      simp only [containsSubL, List.isEmpty_iff] at hc
      exact absurd hc hpat
    | c :: rest =>
      rw [replaceGo, replaceGo]
      split
      · intro heq
        have := List.append_inj heq hlen
        exact hne this.1
      · rename_i hcond
        simp only [containsSubL, Bool.or_eq_true] at hc
        rcases hc with hpre | hrest
        · exact absurd ⟨hpat, hpre⟩ hcond
        · intro heq
          have hf' : rest.length ≤ fuel := by
            simp only [List.length_cons] at hf
            omega
          exact ih rest hf' hrest (List.cons.inj heq).2

/-! ## The derived keys `wk`, `wv`, `wqkv` are distinct from the query key -/

theorem string_ne_of_data_ne {s t : String} (h : s.data ≠ t.data) : s ≠ t := by
  intro he
  exact h (he ▸ rfl)

theorem pyReplace_data (s pat rep : String) :
    (pyReplace s pat rep).data = replaceGo pat.data rep.data s.data.length s.data := rfl

theorem wkOf_ne_self (k : String) (h : strContains k "wq" = true) : wkOf k ≠ k := by
  apply string_ne_of_data_ne
  show (pyReplace k "wq" "wk").data ≠ k.data
  rw [pyReplace_data]
  exact replaceGo_ne_self "wq".data "wk".data (by decide) (by decide)
    k.data.length k.data (le_refl _) h

theorem wvOf_ne_self (k : String) (h : strContains k "wq" = true) : wvOf k ≠ k := by
  apply string_ne_of_data_ne
  show (pyReplace k "wq" "wv").data ≠ k.data
  rw [pyReplace_data]
  exact replaceGo_ne_self "wq".data "wv".data (by decide) (by decide)
    k.data.length k.data (le_refl _) h

theorem wkOf_ne_wvOf (k : String) (h : strContains k "wq" = true) : wkOf k ≠ wvOf k := by
  apply string_ne_of_data_ne
  show (pyReplace k "wq" "wk").data ≠ (pyReplace k "wq" "wv").data
  rw [pyReplace_data, pyReplace_data]
  exact replaceGo_ne_replaceGo "wq".data "wk".data "wv".data (by decide) (by decide)
    (by decide) k.data.length k.data (le_refl _) h

theorem wqkvOf_length_gt (k : String) (h : strContains k "wq" = true) :
    k.data.length < (wqkvOf k).data.length := by
  show k.data.length < (pyReplace k "wq" "wqkv").data.length
  rw [pyReplace_data]
  exact replaceGo_length_gt "wq".data "wqkv".data (by decide) (by decide)
    k.data.length k.data (le_refl _) h

theorem wqkvOf_ne_self (k : String) (h : strContains k "wq" = true) : wqkvOf k ≠ k := by
  apply string_ne_of_data_ne
  intro he
  have := wqkvOf_length_gt k h
  rw [he] at this
  omega

theorem wkOf_length_eq (k : String) : (wkOf k).data.length = k.data.length := by
  show (pyReplace k "wq" "wk").data.length = k.data.length
  rw [pyReplace_data]
  exact replaceGo_length_eq "wq".data "wk".data (by decide) k.data.length k.data

theorem wvOf_length_eq (k : String) : (wvOf k).data.length = k.data.length := by
  show (pyReplace k "wq" "wv").data.length = k.data.length
  rw [pyReplace_data]
  exact replaceGo_length_eq "wq".data "wv".data (by decide) k.data.length k.data

theorem wqkvOf_ne_wkOf (k : String) (h : strContains k "wq" = true) :
    wqkvOf k ≠ wkOf k := by
  apply string_ne_of_data_ne
  intro he
  have h1 := wqkvOf_length_gt k h
  have h2 := wkOf_length_eq k
  rw [he, h2] at h1
  omega

theorem wqkvOf_ne_wvOf (k : String) (h : strContains k "wq" = true) :
    wqkvOf k ≠ wvOf k := by
  apply string_ne_of_data_ne
  intro he
  have h1 := wqkvOf_length_gt k h
  have h2 := wvOf_length_eq k
  rw [he, h2] at h1
  omega

/-! ## Lemmas about `transpose12` and `permute` -/

theorem tidx_d_zero (b c n : Nat) : tidx b c 0 n = n := by
  simp [tidx]

theorem tidx_components (m : Nat) :
    (((m / 2 / 2) * 2 + m % 2) * 2 + (m / 2) % 2) % 2 = (m / 2) % 2 ∧
    (((m / 2 / 2) * 2 + m % 2) * 2 + (m / 2) % 2) / 2 = (m / 2 / 2) * 2 + m % 2 := by
  constructor
  · rw [Nat.mul_add_mod']
    exact Nat.mod_eq_of_lt (Nat.mod_lt _ (by norm_num))
  · rw [mul_comm ((m / 2 / 2) * 2 + m % 2) 2, Nat.mul_add_div (by norm_num),
      Nat.div_eq_of_lt (Nat.mod_lt _ (by norm_num))]
    omega

theorem tidx_inner_involution (m : Nat) :
    let q := ((m / 2 / 2) * 2 + m % 2) * 2 + (m / 2) % 2
    ((q / 2 / 2) * 2 + q % 2) * 2 + (q / 2) % 2 = m := by
  intro q
  have h1 := (tidx_components m).1
  have h2 := (tidx_components m).2
  have h3 : q / 2 / 2 = m / 2 / 2 := by
    rw [h2, mul_comm (m / 2 / 2) 2, Nat.mul_add_div (by norm_num)]
    rw [Nat.div_eq_of_lt (Nat.mod_lt _ (by norm_num))]
    omega
  have h4 : (q / 2) % 2 = m % 2 := by
    rw [h2, Nat.mul_add_mod']
    exact Nat.mod_eq_of_lt (Nat.mod_lt _ (by norm_num))
  rw [h1, h3, h4]
  have e1 := Nat.div_add_mod m 2
  have e2 := Nat.div_add_mod (m / 2) 2
  omega

theorem tidx_involution (d n : Nat) : tidx 2 2 d (tidx 2 2 d n) = n := by
  rcases Nat.eq_zero_or_pos d with hd | hd
  · subst hd
    rw [tidx_d_zero, tidx_d_zero]
  · have hdm := Nat.div_add_mod n d
    have hld : n % d < d := Nat.mod_lt _ hd
    unfold tidx
    generalize hm' : n / d = m at hdm ⊢
    generalize hl' : n % d = l at hdm hld ⊢
    set q := ((m / 2 / 2) * 2 + m % 2) * 2 + (m / 2) % 2 with hq
    have f1 : (q * d + l) / d = q := by
      rw [mul_comm q d, Nat.mul_add_div hd, Nat.div_eq_of_lt hld]
      omega
    have f2 : (q * d + l) % d = l := by
      rw [mul_comm q d, Nat.mul_add_mod]
      exact Nat.mod_eq_of_lt hld
    rw [f1, f2]
    have f3 : ((q / 2 / 2) * 2 + q % 2) * 2 + (q / 2) % 2 = m :=
      tidx_inner_involution m
    rw [f3, mul_comm m d]
    exact hdm

theorem tidx_lt (a d n : Nat) (h : n < a * 2 * 2 * d) :
    tidx 2 2 d n < a * 2 * 2 * d := by
  rcases Nat.eq_zero_or_pos d with hd | hd
  · subst hd
    omega
  · have hld : n % d < d := Nat.mod_lt _ hd
    have hmlt : n / d < a * 2 * 2 := by
      rw [Nat.div_lt_iff_lt_mul hd]
      exact h
    unfold tidx
    generalize hm' : n / d = m at hmlt ⊢
    generalize hl' : n % d = l at hld ⊢
    set q := ((m / 2 / 2) * 2 + m % 2) * 2 + (m / 2) % 2 with hq
    have e1 := Nat.div_add_mod m 2
    have e2 := Nat.div_add_mod (m / 2) 2
    have e3 : m % 2 < 2 := Nat.mod_lt _ (by norm_num)
    have e4 : (m / 2) % 2 < 2 := Nat.mod_lt _ (by norm_num)
    have hq1 : q + 1 ≤ a * 2 * 2 := by omega
    have h1 : q * d + l < (q + 1) * d := by
      rw [Nat.succ_mul]
      exact Nat.add_lt_add_left hld _
    exact Nat.lt_of_lt_of_le h1 (Nat.mul_le_mul_right d hq1)

theorem getD_range_map (f : Nat → Int) (N n : Nat) (h : n < N) :
    ((List.range N).map f).getD n 0 = f n := by
  rw [List.getD_eq_getElem?_getD, List.getElem?_map, List.getElem?_range h]
  rfl

theorem permute_ok_facts (config : ModelArgs) (w : Tensor) (n : Nat) (w' : Tensor)
    (h : permute config w n = .ok w') :
    w'.shape = [config.head_dim * n, config.dim] ∧ w'.data.length = w.data.length ∧
      w'.data.length = config.head_dim * n * config.dim := by
  unfold permute at h
  split at h
  · cases h
  · rename_i v hv
    unfold view4 at hv
    split at hv
    · rename_i hlen
      cases hv
      unfold reshape2 at h
      split at h
      · rename_i hlen2
        cases h
        refine ⟨rfl, ?_, ?_⟩
        · simp only [transpose12] at hlen2 ⊢
          simp only [List.length_map, List.length_range]
          rw [hlen]
          ring
        · simp only [transpose12] at hlen2 ⊢
          exact hlen2
      · cases h
    · cases hv

/-- One application of `permute` with `head_dim = 4`, fully computed. -/
theorem permute_hd4_eq (mn : String) (D NH NLH : Nat) (nh : Nat) (w : Tensor)
    (hw : w.data.length = 4 * nh * D) :
    permute ⟨mn, D, 4, NH, NLH⟩ w nh =
      .ok ⟨[4 * nh, D],
        (List.range (nh * 2 * 2 * D)).map (fun n => w.data.getD (tidx 2 2 D n) 0)⟩ := by
  have hv : view4 w nh 2 (4 / 2) D = .ok ⟨[nh, 2, 2, D], w.data⟩ := by
    have h42 : (4 : Nat) / 2 = 2 := by norm_num
    rw [h42]
    unfold view4
    rw [if_pos (by rw [hw]; ring)]
  unfold permute
  dsimp only
  rw [hv]
  dsimp only
  have ht : transpose12 ⟨[nh, 2, 2, D], w.data⟩ =
      ⟨[nh, 2, 2, D], (List.range (nh * 2 * 2 * D)).map
        (fun n => w.data.getD (tidx 2 2 D n) 0)⟩ := rfl
  rw [ht]
  unfold reshape2
  rw [if_pos (by simp only [List.length_map, List.length_range]; ring)]

/-! ## Claim C2: head permutation involution for `head_dim = 4` (amended) -/

/-- C2, amended: the head permutation is self-inverse for `head_dim = 4`
(the fixture's value; the counterexample shows it is not self-inverse for
`head_dim = 8`): for every configuration with `head_dim = 4`, every head
count and every tensor of shape `(n_head * head_dim, dim)`, applying
`permute` twice returns the original tensor element-for-element. -/
theorem c2_involution_head_dim_4 (config : ModelArgs) (h4 : config.head_dim = 4)
    (nh : Nat) (w : Tensor) (hsh : w.shape = [config.head_dim * nh, config.dim])
    (hw : w.data.length = config.head_dim * nh * config.dim) :
    (match permute config w nh with
     | .ok p => permute config p nh
     | .error e => .error e) = .ok w := by
  rcases config with ⟨mn, D, HD, NH, NLH⟩
  dsimp only at h4 hsh hw
  subst h4
  rw [permute_hd4_eq mn D NH NLH nh w hw]
  dsimp only
  rw [permute_hd4_eq mn D NH NLH nh _ (by simp only [List.length_map, List.length_range]; ring)]
  congr 1
  rcases w with ⟨wsh, wdata⟩
  simp only at hsh hw ⊢
  subst hsh
  congr 1
  apply List.ext_getElem
  · simp only [List.length_map, List.length_range]
    rw [hw]
    ring
  · intro i h1 h2
    simp only [List.length_map, List.length_range] at h1
    rw [List.getElem_map, List.getElem_range]
    have hb1 : tidx 2 2 D i < nh * 2 * 2 * D := tidx_lt nh D i h1
    rw [getD_range_map _ _ _ hb1]
    rw [tidx_involution]
    rw [List.getD_eq_getElem?_getD, List.getElem?_eq_getElem h2]
    rfl

/-- C2, amended, witness: the involution at the fixture configuration
(`head_dim = 4`, two heads, `dim = 8`) on the fixture's query tensor. -/
theorem c2_involution_head_dim_4_witness :
    (match permute cfgFix (mkT [8, 8] 0) 2 with
     | .ok p => permute cfgFix p 2
     | .error e => .error e) = .ok (mkT [8, 8] 0) :=
  c2_involution_head_dim_4 cfgFix rfl 2 (mkT [8, 8] 0) (by decide) (by decide)

/-! ## Claim C1: the end-to-end fixture -/

/-- C1, counterexample: the claim states the fused
`layers.0.attention.wqkv.weight` tensor has shape (12,8); on the fixture
the code produces shape (16,8) — the permuted (8,8) query, the permuted
(4,8) key and the (4,8) value stack to 16 rows, not 12. -/
theorem c1_fused_shape_counterexample :
    (match convertCore cfgFix fixtureMerged with
     | .ok b => (dget? b "layers.0.attention.wqkv.weight").map Tensor.shape
     | .error _ => none) = some [16, 8] ∧ some ([16, 8] : List Nat) ≠ some [12, 8] := by
  exact ⟨by decide, by decide⟩

/-- C1, amended: on the fixture (`dim=8, head_dim=4, n_head=2,
n_local_heads=1`, query (8,8), key/value (4,8), embedding, norm,
output-head and attention-output-projection tensors, and a discard-marked
rotary buffer) the pipeline yields exactly the keys
`tok_embeddings.weight`, `layers.0.attention.wo.weight`, `norm.weight`,
`output.weight` and `layers.0.attention.wqkv.weight`, with the fused
tensor of shape (16,8) (not (12,8)), and no `wq`/`wk`/`wv`-split or
rotary keys remain. -/
theorem c1_fixture_conversion :
    (convertCore cfgFix fixtureMerged).map bagKeys =
      .ok ["tok_embeddings.weight", "layers.0.attention.wo.weight", "norm.weight",
           "output.weight", "layers.0.attention.wqkv.weight"] ∧
    (match convertCore cfgFix fixtureMerged with
     | .ok b => (dget? b "layers.0.attention.wqkv.weight").map Tensor.shape
     | .error _ => none) = some [16, 8] ∧
    (match convertCore cfgFix fixtureMerged with
     | .ok b => b.all (fun p => !(isSplitKey p.1) && !(strContains p.1 "rotary") &&
         !(strContains p.1 "inv_freq"))
     | .error _ => false) = true := by
  exact ⟨by decide, by decide, by decide⟩

/-! ## Claim C2: the head permutation, counterexample part -/

/-- C2, counterexample: with `head_dim = 8` (one head, `dim = 1`) the
query tensor `w8` of shape `(n_head * head_dim, dim) = (8,1)` is mapped
by two applications of `permute` to `[0, 2, 4, 6, 1, 3, 5, 7]`, not back
to itself: the head permutation is not self-inverse. -/
theorem c2_involution_counterexample :
    (match permute cfg8 w8 1 with
     | .ok p => permute cfg8 p 1
     | .error e => .error e) = .ok ⟨[8, 1], [0, 2, 4, 6, 1, 3, 5, 7]⟩ ∧
    (Except.ok (⟨[8, 1], [0, 2, 4, 6, 1, 3, 5, 7]⟩ : Tensor) : Except Err Tensor) ≠ .ok w8 := by
  exact ⟨by decide, by decide⟩

/-! ## Claim C5: remapper error behaviour, counterexample part -/

/-- C5, counterexample: the key `"layersnodigit"` (it contains the
substring `"layers"` but no digit) is neither rewritten, nor discarded,
nor rejected with a `KeyError` naming it — the code raises
`AttributeError` (from `re.search(...).group(0)` on `None`) before the
table is consulted.  Moreover, for a key that does reach the table and
has no rule there, the `KeyError` names the digit-abstracted pattern, not
the offending key itself. -/
theorem c5_trichotomy_counterexample :
    remapKey "layersnodigit" = .error .attributeError ∧
    (Except.error .attributeError : Except Err (Option String)) ≠
      .error (.keyError "layersnodigit") ∧
    remapKey "model.layers.3.badkey.weight" =
      .error (.keyError "model.layers.\x7b\x7d.badkey.weight") ∧
    "model.layers.\x7b\x7d.badkey.weight" ≠ "model.layers.3.badkey.weight" := by
  exact ⟨by decide, by decide, by decide, by decide⟩

/-! ## Claim C8: no split keys in the final bag, counterexample part -/

/-- C8, counterexample: a merged bag holding only a key-projection weight
(no query) converts successfully, and its final bag still contains the
split key `layers.0.attention.wk.weight` — the fuse loop only fires on
keys containing `"wq"`, so orphan key/value projections pass through. -/
theorem c8_split_key_counterexample :
    convertCore cfgFix orphanMerged = .ok [("layers.0.attention.wk.weight", mkT [4, 8] 0)] ∧
    isSplitKey "layers.0.attention.wk.weight" = true := by
  exact ⟨by decide, by decide⟩

/-! ## Claim C6: index resolution -/

/-- C6: index resolution tries `model.safetensors.index.json` first and
`pytorch_model.bin.index.json` second, returning whichever exists with
the primary preferred when both exist, and when neither is present the
whole conversion fails with the missing-index error (`Exception("No model
map found!")`), writing no output file. -/
theorem c6_index_resolution :
    (∀ inp : ConvertInput, inp.stIndex = true →
      resolveIndex inp = .ok "model.safetensors.index.json") ∧
    (∀ inp : ConvertInput, inp.stIndex = false → inp.ptIndex = true →
      resolveIndex inp = .ok "pytorch_model.bin.index.json") ∧
    (∀ inp : ConvertInput, inp.stIndex = false → inp.ptIndex = false →
      convert_model inp = .error .noModelMap) := by
  refine ⟨fun inp h1 => ?_, fun inp h1 h2 => ?_, fun inp h1 h2 => ?_⟩ <;>
    simp [resolveIndex, convert_model, h1, *]

/-- C6, witness: the three cases of `c6_index_resolution` instantiated at
concrete checkpoint directories. -/
theorem c6_index_resolution_witness :
    resolveIndex inputBoth = .ok "model.safetensors.index.json" ∧
    resolveIndex inputPtOnly = .ok "pytorch_model.bin.index.json" ∧
    convert_model inputNeither = .error .noModelMap := by
  exact ⟨c6_index_resolution.1 inputBoth rfl,
         c6_index_resolution.2.1 inputPtOnly rfl rfl,
         c6_index_resolution.2.2 inputNeither rfl rfl⟩

/-! ## Claim C3: fused QKV layout -/

theorem cat3_eval (q k v : Tensor) (r1 r2 r3 c : Nat)
    (h1 : q.shape = [r1, c]) (h2 : k.shape = [r2, c]) (h3 : v.shape = [r3, c]) :
    cat3 q k v = .ok ⟨[r1 + r2 + r3, c], q.data ++ k.data ++ v.data⟩ := by
  unfold cat3
  rw [h1, h2, h3]
  dsimp only
  rw [if_pos ⟨rfl, rfl⟩]

/-- C3: for every bag and every snapshot key containing `"wq"` whose
query/key/value lookups succeed and whose query and key weights permute
successfully, the fuse-loop body stores, under the `wqkv` key, the
concatenation `[permuted query, permuted key, value]` along the row
dimension — its first `n_head * head_dim` rows (`n_head * head_dim * dim`
elements) are the permuted query weight, the next `n_local_heads *
head_dim` rows the permuted key weight, and the remaining rows the
unmodified value weight — and deletes the three original `wq`/`wk`/`wv`
entries, replacing them with the single fused entry. -/
theorem c3_fused_qkv_layout (config : ModelArgs) (b : Bag) (key : String)
    (q k v q1 k1 : Tensor) (rv : Nat)
    (hwq : strContains key "wq" = true)
    (hq : dget? b key = some q)
    (hk : dget? b (wkOf key) = some k)
    (hv : dget? b (wvOf key) = some v)
    (hq1 : permute config q config.n_head = .ok q1)
    (hk1 : permute config k config.n_local_heads = .ok k1)
    (hvs : v.shape = [rv, config.dim]) :
    fuseStep config b key = .ok (derase (derase (derase (dinsert b (wqkvOf key)
        ⟨[config.head_dim * config.n_head + config.head_dim * config.n_local_heads + rv,
          config.dim], q1.data ++ k1.data ++ v.data⟩) key) (wkOf key)) (wvOf key)) ∧
    (∀ b2, fuseStep config b key = .ok b2 →
      dget? b2 (wqkvOf key) = some
        ⟨[config.head_dim * config.n_head + config.head_dim * config.n_local_heads + rv,
          config.dim], q1.data ++ k1.data ++ v.data⟩ ∧
      dget? b2 key = none ∧ dget? b2 (wkOf key) = none ∧ dget? b2 (wvOf key) = none) ∧
    (q1.data ++ k1.data ++ v.data).take
      (config.n_head * config.head_dim * config.dim) = q1.data ∧
    ((q1.data ++ k1.data ++ v.data).drop
      (config.n_head * config.head_dim * config.dim)).take
      (config.n_local_heads * config.head_dim * config.dim) = k1.data ∧
    (q1.data ++ k1.data ++ v.data).drop
      (config.n_head * config.head_dim * config.dim +
       config.n_local_heads * config.head_dim * config.dim) = v.data := by
  have hsq1 := permute_ok_facts config q config.n_head q1 hq1
  have hsk1 := permute_ok_facts config k config.n_local_heads k1 hk1
  have hcat : cat3 q1 k1 v = .ok
      ⟨[config.head_dim * config.n_head + config.head_dim * config.n_local_heads + rv,
        config.dim], q1.data ++ k1.data ++ v.data⟩ :=
    cat3_eval q1 k1 v _ _ rv config.dim hsq1.1 hsk1.1 hvs
  have hstep : fuseStep config b key = .ok (derase (derase (derase (dinsert b (wqkvOf key)
      ⟨[config.head_dim * config.n_head + config.head_dim * config.n_local_heads + rv,
        config.dim], q1.data ++ k1.data ++ v.data⟩) key) (wkOf key)) (wvOf key)) := by
    unfold fuseStep
    rw [if_pos hwq]
    unfold getE
    rw [hq]
    dsimp only
    rw [hk]
    dsimp only
    rw [hv]
    dsimp only
    rw [hq1]
    dsimp only
    rw [hk1]
    dsimp only
    rw [hcat]
  have hlq : q1.data.length = config.n_head * config.head_dim * config.dim := by
    rw [hsq1.2.2]
    ring
  have hlk : k1.data.length = config.n_local_heads * config.head_dim * config.dim := by
    rw [hsk1.2.2]
    ring
  refine ⟨hstep, ?_, ?_, ?_, ?_⟩
  · intro b2 hb2
    rw [hstep] at hb2
    have hb2' := (Except.ok.inj hb2).symm
    subst hb2'
    refine ⟨?_, ?_, ?_, ?_⟩
    · rw [dget?_derase_ne _ _ _ (wqkvOf_ne_wvOf key hwq),
        dget?_derase_ne _ _ _ (wqkvOf_ne_wkOf key hwq),
        dget?_derase_ne _ _ _ (wqkvOf_ne_self key hwq),
        dget?_dinsert_self]
    · rw [dget?_derase_ne _ _ _ (Ne.symm (wvOf_ne_self key hwq)),
        dget?_derase_ne _ _ _ (Ne.symm (wkOf_ne_self key hwq)),
        dget?_derase_self]
    · rw [dget?_derase_ne _ _ _ (wkOf_ne_wvOf key hwq), dget?_derase_self]
    · rw [dget?_derase_self]
  · rw [List.append_assoc]
    exact List.take_left' hlq
  · rw [List.append_assoc]
    rw [List.drop_left' hlq]
    exact List.take_left' hlk
  · have hl12 : (q1.data ++ k1.data).length =
        config.n_head * config.head_dim * config.dim +
        config.n_local_heads * config.head_dim * config.dim := by
      rw [List.length_append, hlq, hlk]
    exact List.drop_left' hl12

/-- C3, witness: the fuse-loop body applied to the fixture's remapped bag
at the query key `layers.0.attention.wq.weight`. -/
theorem c3_fused_qkv_layout_witness :
    fuseStep cfgFix fixtureRemapped "layers.0.attention.wq.weight" =
      .ok (derase (derase (derase (dinsert fixtureRemapped
        (wqkvOf "layers.0.attention.wq.weight")
        ⟨[16, 8], fixQperm.data ++ fixKperm.data ++ (mkT [4, 8] 200).data⟩)
        "layers.0.attention.wq.weight")
        (wkOf "layers.0.attention.wq.weight"))
        (wvOf "layers.0.attention.wq.weight")) ∧
    (fixQperm.data ++ fixKperm.data ++ (mkT [4, 8] 200).data).take 64 = fixQperm.data := by
  have h := c3_fused_qkv_layout cfgFix fixtureRemapped "layers.0.attention.wq.weight"
    (mkT [8, 8] 0) (mkT [4, 8] 100) (mkT [4, 8] 200) fixQperm fixKperm 4
    (by decide) (by decide) (by decide) (by decide) (by decide) (by decide) (by decide)
  exact ⟨h.1, h.2.2.1⟩

/-! ## Claim C9: shard merging, later shard wins -/

theorem dget?_updateBag (d : Bag) (k : String) (hnd : (bagKeys d).Nodup) :
    ∀ acc : Bag, dget? (updateBag acc d) k =
      match dget? d k with
      | some v => some v
      | none => dget? acc k := by
  induction d with
  | nil => intro acc; rfl
  | cons p rest ih =>
    intro acc
    rw [bagKeys_cons, List.nodup_cons] at hnd
    have hstep : updateBag acc (p :: rest) = updateBag (dinsert acc p.1 p.2) rest := by
      unfold updateBag
      rw [List.foldl_cons]
    rw [hstep, ih hnd.2, dget?_cons]
    by_cases hpk : p.1 = k
    · have hrest : dget? rest k = none := by
        rw [dget?_eq_none_iff]
        exact hpk ▸ hnd.1
      rw [hrest, if_pos hpk]
      subst hpk
      rw [dget?_dinsert_self]
    · rw [if_neg hpk]
      rcases hr : dget? rest k with _ | v
      · rw [dget?_dinsert, if_neg (fun h => hpk h)]
      · rfl

theorem lastWins_init (k : String) :
    ∀ (ds : List Bag) (i : Option Tensor),
      ds.foldl (fun r d => match dget? d k with | some v => some v | none => r) i =
      match ds.foldl (fun r d => match dget? d k with | some v => some v | none => r) none with
      | some v => some v
      | none => i := by
  intro ds
  induction ds with
  | nil => intro i; rfl
  | cons d rest ih =>
    intro i
    simp only [List.foldl_cons]
    rw [ih (match dget? d k with | some v => some v | none => i),
      ih (match dget? d k with | some v => some v | none => none)]
    generalize rest.foldl
      (fun r d => match dget? d k with | some v => some v | none => r) none = G
    rcases G with _ | v <;> rcases h2 : dget? d k with _ | w <;> rfl

theorem lastWins_cons (d : Bag) (rest : List Bag) (k : String) :
    lastWins (d :: rest) k =
      match lastWins rest k with
      | some v => some v
      | none => dget? d k := by
  have h1 : lastWins (d :: rest) k =
      rest.foldl (fun r d => match dget? d k with | some v => some v | none => r)
        (match dget? d k with | some v => some v | none => none) := rfl
  rw [h1, lastWins_init]
  show (match lastWins rest k with
        | some v => some v
        | none => match dget? d k with | some v => some v | none => none) = _
  generalize lastWins rest k = G
  rcases G with _ | v <;> rcases h2 : dget? d k with _ | w <;> rfl

theorem merge_go (k : String) :
    ∀ ds : List Bag, (∀ d ∈ ds, (bagKeys d).Nodup) →
      ∀ acc : Bag, dget? (ds.foldl updateBag acc) k =
        match lastWins ds k with
        | some v => some v
        | none => dget? acc k := by
  intro ds
  induction ds with
  | nil => intro _ acc; rfl
  | cons d rest ih =>
    intro hnd acc
    rw [List.foldl_cons]
    rw [ih (fun d' hd' => hnd d' (List.mem_cons_of_mem _ hd')) (updateBag acc d)]
    rw [dget?_updateBag d k (hnd d (List.mem_cons_self _ _)) acc]
    rw [lastWins_cons]
    generalize lastWins rest k = G
    rcases G with _ | v <;> rcases h2 : dget? d k with _ | w <;> rfl

/-- C9: merging never fails (`mergeBags` is a total function) and, for
every key, the tensor present in the merged TensorBag is the tensor of
the last (later-loaded) shard dict providing that key; in particular, on
a duplicate key the later-loaded shard wins. -/
theorem c9_merge_later_shard_wins :
    ∀ (ds : List Bag) (k : String), (∀ d ∈ ds, (bagKeys d).Nodup) →
      dget? (mergeBags ds) k = lastWins ds k := by
  intro ds k hnd
  unfold mergeBags
  rw [merge_go k ds hnd []]
  rcases h1 : lastWins ds k with _ | v
  · rfl
  · rfl

/-- C9, witness: two shard dicts both providing `a.weight`; the merged
bag holds the tensor of the later-loaded shard. -/
theorem c9_merge_later_shard_wins_witness :
    dget? (mergeBags [[("a.weight", mkT [2] 0)], [("a.weight", mkT [2] 10)]]) "a.weight" =
      lastWins [[("a.weight", mkT [2] 0)], [("a.weight", mkT [2] 10)]] "a.weight" ∧
    lastWins [[("a.weight", mkT [2] 0)], [("a.weight", mkT [2] 10)]] "a.weight" =
      some (mkT [2] 10) := by
  exact ⟨c9_merge_later_shard_wins _ _ (by decide), by decide⟩

/-! ## Digit-run abstraction lemmas (for the remap key computation) -/

theorem subDigitsGo_nodigit (l : List Char) (h : ∀ c ∈ l, c.isDigit = false) :
    ∀ st : Bool, subDigitsGo st l = l := by
  induction l with
  | nil => intro st; rfl
  | cons c rest ih =>
    intro st
    have hc : c.isDigit = false := h c (List.mem_cons_self _ _)
    simp only [subDigitsGo, hc, Bool.false_eq_true, if_false]
    rw [ih (fun c hc => h c (List.mem_cons_of_mem _ hc)) false]

theorem subDigitsGo_cons_nodigit (c : Char) (l : List Char) (hc : c.isDigit = false)
    (st : Bool) : subDigitsGo st (c :: l) = c :: subDigitsGo false l := by
  simp only [subDigitsGo, hc, Bool.false_eq_true, if_false]

theorem subDigitsGo_cons_digit (c : Char) (l : List Char) (hc : c.isDigit = true) :
    subDigitsGo false (c :: l) =
      Char.ofNat 123 :: Char.ofNat 125 :: subDigitsGo true l := by
  simp only [subDigitsGo, hc, if_true]
  rfl

theorem subDigitsGo_run_append (c0 : Char) (ds l2 : List Char) (hc0 : c0.isDigit = true) :
    subDigitsGo false ((c0 :: ds) ++ l2) =
      Char.ofNat 123 :: Char.ofNat 125 :: subDigitsGo true (ds ++ l2) := by
  rw [List.cons_append, subDigitsGo_cons_digit c0 _ hc0]

theorem subDigitsGo_false_append (l1 l2 : List Char) (h : ∀ c ∈ l1, c.isDigit = false) :
    subDigitsGo false (l1 ++ l2) = l1 ++ subDigitsGo false l2 := by
  induction l1 with
  | nil => rfl
  | cons c rest ih =>
    rw [List.cons_append,
      subDigitsGo_cons_nodigit c _ (h c (List.mem_cons_self _ _)) false,
      ih (fun c hc => h c (List.mem_cons_of_mem _ hc)), List.cons_append]

theorem subDigitsGo_nodigit_run_append (c : Char) (l1 l2 : List Char)
    (hc : c.isDigit = false) (h : ∀ x ∈ l1, x.isDigit = false) (st : Bool) :
    subDigitsGo st ((c :: l1) ++ l2) = (c :: l1) ++ subDigitsGo false l2 := by
  rw [List.cons_append, subDigitsGo_cons_nodigit c _ hc st,
    subDigitsGo_false_append l1 l2 h, List.cons_append]

theorem subDigitsGo_true_digits (d l2 : List Char) (h : ∀ c ∈ d, c.isDigit = true) :
    subDigitsGo true (d ++ l2) = subDigitsGo true l2 := by
  induction d with
  | nil => rfl
  | cons c rest ih =>
    rw [List.cons_append]
    simp only [subDigitsGo, h c (List.mem_cons_self _ _), if_true]
    exact ih (fun c hc => h c (List.mem_cons_of_mem _ hc))

theorem firstRunL_append_nodigit (l1 l2 : List Char) (h : ∀ c ∈ l1, c.isDigit = false) :
    firstRunL (l1 ++ l2) = firstRunL l2 := by
  induction l1 with
  | nil => rfl
  | cons c rest ih =>
    rw [List.cons_append]
    simp only [firstRunL, h c (List.mem_cons_self _ _), Bool.false_eq_true, if_false]
    exact ih (fun c hc => h c (List.mem_cons_of_mem _ hc))

theorem takeWhile_digits_append (ds l2 : List Char) (hds : ∀ c ∈ ds, c.isDigit = true)
    (hl2 : ∀ c, l2.head? = some c → c.isDigit = false) :
    (ds ++ l2).takeWhile Char.isDigit = ds := by
  induction ds with
  | nil =>
    rcases l2 with _ | ⟨c, r⟩
    · rfl
    · exact List.takeWhile_cons_of_neg (by simp [hl2 c rfl])
  | cons c rest ih =>
    rw [List.cons_append,
      List.takeWhile_cons_of_pos (hds c (List.mem_cons_self _ _)),
      ih (fun c hc => hds c (List.mem_cons_of_mem _ hc))]

theorem firstRunL_digit_run (c0 : Char) (ds l2 : List Char) (hc0 : c0.isDigit = true)
    (hds : ∀ c ∈ ds, c.isDigit = true)
    (hl2 : ∀ c, l2.head? = some c → c.isDigit = false) :
    firstRunL ((c0 :: ds) ++ l2) = some (c0 :: ds) := by
  rw [List.cons_append]
  simp only [firstRunL, hc0, if_true]
  rw [takeWhile_digits_append ds l2 hds hl2]

/-! ## Placeholder instantiation (`str.format`) lemmas -/

theorem replaceGo_skip_char (pc : Char) (pt rep : List Char) (c : Char) (rest : List Char)
    (fuel : Nat) (hne : c ≠ pc) :
    replaceGo (pc :: pt) rep (fuel + 1) (c :: rest) =
      c :: replaceGo (pc :: pt) rep fuel rest := by
  rw [replaceGo]
  rw [if_neg]
  intro hcond
  obtain ⟨t, ht⟩ := List.isPrefixOf_iff_prefix.1 hcond.2
  rw [List.cons_append] at ht
  exact hne ((List.cons.inj ht).1.symm)

theorem replaceGo_no_occur (pc : Char) (pt rep : List Char) :
    ∀ (fuel : Nat) (l : List Char), (∀ c ∈ l, c ≠ pc) →
      replaceGo (pc :: pt) rep fuel l = l := by
  intro fuel
  induction fuel with
  | zero => intro l _; rfl
  | succ fuel ih =>
    intro l h
    rcases l with _ | ⟨c, rest⟩
    · rfl
    · rw [replaceGo_skip_char pc pt rep c rest fuel (h c (List.mem_cons_self _ _)),
        ih rest (fun c hc => h c (List.mem_cons_of_mem _ hc))]

theorem replaceGo_skip_run (pc : Char) (pt rep : List Char) (l1 : List Char)
    (h1 : ∀ c ∈ l1, c ≠ pc) :
    ∀ (fuel : Nat) (l2 : List Char),
      replaceGo (pc :: pt) rep (l1.length + fuel) (l1 ++ l2) =
        l1 ++ replaceGo (pc :: pt) rep fuel l2 := by
  induction l1 with
  | nil =>
    intro fuel l2
    simp only [List.length_nil, Nat.zero_add, List.nil_append]
  | cons c rest ih =>
    intro fuel l2
    have harith : (c :: rest).length + fuel = (rest.length + fuel) + 1 := by
      simp only [List.length_cons]
      omega
    rw [harith, List.cons_append,
      replaceGo_skip_char pc pt rep c _ _ (h1 c (List.mem_cons_self _ _)),
      ih (fun c hc => h1 c (List.mem_cons_of_mem _ hc)) fuel l2, List.cons_append]

theorem replace_placeholder_split (l1 l2 rep : List Char)
    (h1 : ∀ c ∈ l1, c ≠ Char.ofNat 123) (h2 : ∀ c ∈ l2, c ≠ Char.ofNat 123) :
    replaceGo (Char.ofNat 123 :: Char.ofNat 125 :: []) rep
      (l1 ++ Char.ofNat 123 :: Char.ofNat 125 :: l2).length
      (l1 ++ Char.ofNat 123 :: Char.ofNat 125 :: l2) = l1 ++ rep ++ l2 := by
  have hlen : (l1 ++ Char.ofNat 123 :: Char.ofNat 125 :: l2).length =
      l1.length + (l2.length + 2) := by
    simp only [List.length_append, List.length_cons]
  rw [hlen, replaceGo_skip_run _ _ _ l1 h1 (l2.length + 2) _]
  have hpre : (Char.ofNat 123 :: Char.ofNat 125 :: []).isPrefixOf
      (Char.ofNat 123 :: Char.ofNat 125 :: l2) = true := by
    rw [List.isPrefixOf_iff_prefix]
    exact ⟨l2, rfl⟩
  have harith : l2.length + 2 = (l2.length + 1) + 1 := rfl
  rw [harith, replaceGo, if_pos ⟨by simp, hpre⟩]
  have hdrop : (Char.ofNat 123 :: Char.ofNat 125 :: l2).drop
      (Char.ofNat 123 :: Char.ofNat 125 :: []).length = l2 := rfl
  rw [hdrop, replaceGo_no_occur _ _ _ _ l2 h2, List.append_assoc]

theorem pyReplace_placeholder (s1 s2 r : String)
    (h1 : ∀ c ∈ s1.data, c ≠ Char.ofNat 123) (h2 : ∀ c ∈ s2.data, c ≠ Char.ofNat 123) :
    pyReplace (s1 ++ placeholder ++ s2) placeholder r = s1 ++ r ++ s2 := by
  apply String.ext
  have hd : (s1 ++ placeholder ++ s2).data =
      s1.data ++ Char.ofNat 123 :: Char.ofNat 125 :: s2.data := by
    rw [String.data_append, String.data_append]
    rw [List.append_assoc]
    rfl
  show replaceGo placeholder.data r.data
      (s1 ++ placeholder ++ s2).data.length (s1 ++ placeholder ++ s2).data = _
  rw [hd]
  have hpl : placeholder.data = Char.ofNat 123 :: Char.ofNat 125 :: [] := rfl
  rw [hpl]
  rw [String.data_append, String.data_append]
  exact replace_placeholder_split s1.data s2.data r.data h1 h2

/-! ## Claim C10: abstraction trigger, digit-run abstraction, sorted merge -/

/-- C10: (i) a key without the substring `"layers"` is looked up literally
in the table, digits or not; (ii) for a `"layers"` key, the whole first
maximal digit run (of any length) is captured as the layer index and
substituted into the target pattern; (iii) every maximal digit run is
abstracted to the placeholder (a two-run key is abstracted at both runs,
as its `KeyError` shows); (iv) the shard list is sorted (after
deduplication) before merging, so the merge result is invariant under
permutation of the index's file list. -/
theorem c10_key_abstraction_and_sorted_merge :
    (∀ key : String, strContains key "layers" = false →
      remapKey key =
        match wmFind? key with
        | none => .error (.keyError key)
        | some none => .ok none
        | some (some t) => .ok (some t)) ∧
    (∀ d : String, d.data ≠ [] → (∀ c ∈ d.data, c.isDigit = true) →
      remapKey ("model.layers." ++ d ++ ".self_attn.q_proj.weight") =
        .ok (some ("layers." ++ d ++ ".attention.wq.weight"))) ∧
    (∀ d1 d2 : String, d1.data ≠ [] → (∀ c ∈ d1.data, c.isDigit = true) →
      d2.data ≠ [] → (∀ c ∈ d2.data, c.isDigit = true) →
      remapKey ("model.layers." ++ d1 ++ ".mlp" ++ d2 ++ ".weight") =
        .error (.keyError "model.layers.\x7b\x7d.mlp\x7b\x7d.weight")) ∧
    (∀ fs1 fs2 : List String, fs1.Perm fs2 → sortedFiles fs1 = sortedFiles fs2) := by
  refine ⟨?_, ?_, ?_, ?_⟩
  · intro key h
    unfold remapKey
    rw [if_neg]
    simp [h]
  · intro d hne hdig
    obtain ⟨c0, ds, hd⟩ : ∃ c0 ds, d.data = c0 :: ds := by
      rcases hl : d.data with _ | ⟨c0, ds⟩
      · exact absurd hl hne
      · exact ⟨c0, ds, rfl⟩
    have hdata : ("model.layers." ++ d ++ ".self_attn.q_proj.weight").data =
        "model.layers.".data ++ (d.data ++ ".self_attn.q_proj.weight".data) := by
      rw [String.data_append, String.data_append, List.append_assoc]
    have hlay : strContains ("model.layers." ++ d ++ ".self_attn.q_proj.weight")
        "layers" = true := by
      unfold strContains
      rw [hdata]
      exact containsSubL_append_left _ _ _ (by decide)
    have hfr : firstRun ("model.layers." ++ d ++ ".self_attn.q_proj.weight") = some d := by
      unfold firstRun
      rw [hdata, firstRunL_append_nodigit _ _ (by decide), hd,
        firstRunL_digit_run c0 ds _ (hdig c0 (hd ▸ List.mem_cons_self _ _))
          (fun c hc => hdig c (hd ▸ List.mem_cons_of_mem _ hc))
          (by intro c hc; cases hc; decide), ← hd]
      rfl
    have hsubd : subDigitsGo false ("model.layers." ++ d ++ ".self_attn.q_proj.weight").data
        = "model.layers.\x7b\x7d.self_attn.q_proj.weight".data := by
      rw [hdata, subDigitsGo_false_append _ _ (by decide), hd,
        subDigitsGo_run_append c0 ds _ (hdig c0 (hd ▸ List.mem_cons_self _ _)),
        subDigitsGo_true_digits ds _ (fun c hc => hdig c (hd ▸ List.mem_cons_of_mem _ hc)),
        subDigitsGo_nodigit _ (by decide) true]
      decide
    have hsub : subDigits ("model.layers." ++ d ++ ".self_attn.q_proj.weight") =
        "model.layers.\x7b\x7d.self_attn.q_proj.weight" :=
      String.ext hsubd
    unfold remapKey
    rw [if_pos hlay, hfr]
    dsimp only
    rw [hsub]
    have hwm : wmFind? "model.layers.\x7b\x7d.self_attn.q_proj.weight" =
        some (some "layers.\x7b\x7d.attention.wq.weight") := by decide
    rw [hwm]
    dsimp only
    have hpat : ("layers.\x7b\x7d.attention.wq.weight" : String) =
        "layers." ++ placeholder ++ ".attention.wq.weight" := by decide
    rw [hpat, pyReplace_placeholder _ _ _ (by decide) (by decide)]
  · intro d1 d2 hne1 hdig1 hne2 hdig2
    obtain ⟨c0, ds, hd1⟩ : ∃ c0 ds, d1.data = c0 :: ds := by
      rcases hl : d1.data with _ | ⟨c0, ds⟩
      · exact absurd hl hne1
      · exact ⟨c0, ds, rfl⟩
    obtain ⟨e0, es, hd2⟩ : ∃ e0 es, d2.data = e0 :: es := by
      rcases hl : d2.data with _ | ⟨e0, es⟩
      · exact absurd hl hne2
      · exact ⟨e0, es, rfl⟩
    have hdata : ("model.layers." ++ d1 ++ ".mlp" ++ d2 ++ ".weight").data =
        "model.layers.".data ++ (d1.data ++ (".mlp".data ++ (d2.data ++ ".weight".data))) := by
      rw [String.data_append, String.data_append, String.data_append, String.data_append]
      simp [List.append_assoc]
    have hlay : strContains ("model.layers." ++ d1 ++ ".mlp" ++ d2 ++ ".weight")
        "layers" = true := by
      unfold strContains
      rw [hdata]
      exact containsSubL_append_left _ _ _ (by decide)
    have hfr : firstRun ("model.layers." ++ d1 ++ ".mlp" ++ d2 ++ ".weight") =
        some d1 := by
      unfold firstRun
      rw [hdata, firstRunL_append_nodigit _ _ (by decide), hd1,
        firstRunL_digit_run c0 ds _ (hdig1 c0 (hd1 ▸ List.mem_cons_self _ _))
          (fun c hc => hdig1 c (hd1 ▸ List.mem_cons_of_mem _ hc))
          (by intro c hc; cases hc; decide), ← hd1]
      rfl
    have hsubd : subDigitsGo false ("model.layers." ++ d1 ++ ".mlp" ++ d2 ++ ".weight").data
        = "model.layers.\x7b\x7d.mlp\x7b\x7d.weight".data := by
      rw [hdata, subDigitsGo_false_append _ _ (by decide), hd1,
        subDigitsGo_run_append c0 ds _ (hdig1 c0 (hd1 ▸ List.mem_cons_self _ _)),
        subDigitsGo_true_digits ds _ (fun c hc => hdig1 c (hd1 ▸ List.mem_cons_of_mem _ hc)),
        subDigitsGo_nodigit_run_append '.' ['m', 'l', 'p'] _ (by decide) (by decide) true,
        hd2,
        subDigitsGo_run_append e0 es _ (hdig2 e0 (hd2 ▸ List.mem_cons_self _ _)),
        subDigitsGo_true_digits es _ (fun c hc => hdig2 c (hd2 ▸ List.mem_cons_of_mem _ hc)),
        subDigitsGo_nodigit _ (by decide) true]
      decide
    have hsub : subDigits ("model.layers." ++ d1 ++ ".mlp" ++ d2 ++ ".weight") =
        "model.layers.\x7b\x7d.mlp\x7b\x7d.weight" :=
      String.ext hsubd
    unfold remapKey
    rw [if_pos hlay, hfr]
    dsimp only
    rw [hsub]
    have hwm : wmFind? "model.layers.\x7b\x7d.mlp\x7b\x7d.weight" = none := by decide
    rw [hwm]
  · intro fs1 fs2 hperm
    unfold sortedFiles
    have h1 : fs1.dedup.Perm fs2.dedup := hperm.dedup
    have hp : (List.insertionSort (fun a b : String => a ≤ b) fs1.dedup).Perm
        (List.insertionSort (fun a b : String => a ≤ b) fs2.dedup) :=
      ((List.perm_insertionSort _ _).trans h1).trans (List.perm_insertionSort _ _).symm
    exact List.eq_of_perm_of_sorted hp (List.sorted_insertionSort _ _)
      (List.sorted_insertionSort _ _)

/-- C10, witness: the four parts of
`c10_key_abstraction_and_sorted_merge` at concrete inputs: a digit-bearing
key without `"layers"` is looked up literally (and rejected), a
two-digit-run layer index `"12"` is captured whole, a two-run key is
abstracted at both runs, and two orderings of a shard list sort the
same. -/
theorem c10_key_abstraction_and_sorted_merge_witness :
    remapKey "model.embed_tokens.weight2" =
      (match wmFind? "model.embed_tokens.weight2" with
       | none => .error (.keyError "model.embed_tokens.weight2")
       | some none => .ok none
       | some (some t) => .ok (some t)) ∧
    remapKey "model.layers.12.self_attn.q_proj.weight" =
      .ok (some ("layers." ++ "12" ++ ".attention.wq.weight")) ∧
    remapKey "model.layers.3.mlp7.weight" =
      .error (.keyError "model.layers.\x7b\x7d.mlp\x7b\x7d.weight") ∧
    sortedFiles ["b.bin", "a.bin"] = sortedFiles ["a.bin", "b.bin"] := by
  refine ⟨c10_key_abstraction_and_sorted_merge.1 _ (by decide), ?_, ?_,
    c10_key_abstraction_and_sorted_merge.2.2.2 _ _ (by decide)⟩
  · have h := c10_key_abstraction_and_sorted_merge.2.1 "12" (by decide) (by decide)
    have he : ("model.layers." ++ "12" ++ ".self_attn.q_proj.weight" : String) =
        "model.layers.12.self_attn.q_proj.weight" := by decide
    rw [he] at h
    exact h
  · have h := c10_key_abstraction_and_sorted_merge.2.2.1 "3" "7"
      (by decide) (by decide) (by decide) (by decide)
    have he : ("model.layers." ++ "3" ++ ".mlp" ++ "7" ++ ".weight" : String) =
        "model.layers.3.mlp7.weight" := by decide
    rw [he] at h
    exact h

/-! ## Claim C5 (amended): remapper and fuse error behaviour -/

/-- C5, amended: for every key that lacks the substring `"layers"` or
contains a digit, the Key Remapper either rewrites it to exactly one
target key (`.ok (some t)`), removes it when its rule is the discard
sentinel (`.ok none`), or fails with a `KeyError`
(`UnknownWeightKeyError`) naming the key itself (literal branch) or its
digit-abstracted pattern (layer branch) — never any other error.  (A key
containing `"layers"` but no digit instead raises `AttributeError`, per
the counterexample.)  During fusion, a query key whose `wk` (or `wv`)
counterpart is missing fails with a `KeyError` naming the missing derived
key rather than being silently skipped. -/
theorem c5_remap_error_behaviour_amended :
    (∀ key : String,
      strContains key "layers" = false ∨ (firstRunL key.data).isSome = true →
      ∀ e : Err, remapKey key = .error e →
        e = .keyError key ∨ e = .keyError (subDigits key)) ∧
    (∀ (config : ModelArgs) (b : Bag) (key : String) (q : Tensor),
      strContains key "wq" = true → dget? b key = some q →
      dget? b (wkOf key) = none →
      fuseStep config b key = .error (.keyError (wkOf key))) ∧
    (∀ (config : ModelArgs) (b : Bag) (key : String) (q k : Tensor),
      strContains key "wq" = true → dget? b key = some q →
      dget? b (wkOf key) = some k → dget? b (wvOf key) = none →
      fuseStep config b key = .error (.keyError (wvOf key))) := by
  refine ⟨?_, ?_, ?_⟩
  · intro key h e he
    unfold remapKey at he
    by_cases hl : strContains key "layers" = true
    · rw [if_pos hl] at he
      rcases h with h | h
      · rw [h] at hl
        cases hl
      · rcases hfr : firstRunL key.data with _ | r
        · rw [hfr] at h
          cases h
        · have hfr' : firstRun key = some ⟨r⟩ := by
            unfold firstRun
            rw [hfr]
            rfl
          rw [hfr'] at he
          dsimp only at he
          rcases hwm : wmFind? (subDigits key) with _ | o
          · rw [hwm] at he
            dsimp only at he
            right
            exact (Except.error.inj he).symm
          · rcases o with _ | pat
            · rw [hwm] at he
              dsimp only at he
              cases he
            · rw [hwm] at he
              dsimp only at he
              cases he
    · rw [if_neg hl] at he
      rcases hwm : wmFind? key with _ | o
      · rw [hwm] at he
        dsimp only at he
        left
        exact (Except.error.inj he).symm
      · rcases o with _ | t
        · rw [hwm] at he
          dsimp only at he
          cases he
        · rw [hwm] at he
          dsimp only at he
          cases he
  · intro config b key q hwq hq hk
    unfold fuseStep
    rw [if_pos hwq]
    unfold getE
    rw [hq]
    dsimp only
    rw [hk]
  · intro config b key q k hwq hq hk hv
    unfold fuseStep
    rw [if_pos hwq]
    unfold getE
    rw [hq]
    dsimp only
    rw [hk]
    dsimp only
    rw [hv]

/-- C5, witness: the amended trichotomy at a two-digit-run `"layers"` key
(the error names the abstracted pattern), and the fuse-loop `KeyError`
for a missing key-projection counterpart. -/
theorem c5_remap_error_behaviour_amended_witness :
    (Err.keyError "model.layers.\x7b\x7d.mlp\x7b\x7d.weight" =
        .keyError "model.layers.3.mlp7.weight" ∨
      Err.keyError "model.layers.\x7b\x7d.mlp\x7b\x7d.weight" =
        .keyError (subDigits "model.layers.3.mlp7.weight")) ∧
    fuseStep cfgFix [("layers.9.attention.wq.weight", mkT [8, 8] 0)]
        "layers.9.attention.wq.weight" =
      .error (.keyError (wkOf "layers.9.attention.wq.weight")) := by
  constructor
  · exact c5_remap_error_behaviour_amended.1 "model.layers.3.mlp7.weight"
      (Or.inr (by decide)) (Err.keyError "model.layers.\x7b\x7d.mlp\x7b\x7d.weight")
      (by decide)
  · exact c5_remap_error_behaviour_amended.2.1 cfgFix _ _ (mkT [8, 8] 0)
      (by decide) (by decide) (by decide)

/-! ## Claims C7 and C8: counts and keys through the remap and fuse loops -/

theorem foldlM_remap_cons (p : String × Tensor) (rest : Bag) (acc : Bag) :
    (p :: rest).foldlM remapStep acc =
      match remapStep acc p with
      | .error e => .error e
      | .ok acc2 => rest.foldlM remapStep acc2 := by
  rw [List.foldlM_cons]
  rcases remapStep acc p with e | acc2 <;> rfl

theorem foldlM_fuse_cons (config : ModelArgs) (key : String) (rest : List String) (b : Bag) :
    (key :: rest).foldlM (fuseStep config) b =
      match fuseStep config b key with
      | .error e => .error e
      | .ok b2 => rest.foldlM (fuseStep config) b2 := by
  rw [List.foldlM_cons]
  rcases fuseStep config b key with e | b2 <;> rfl

theorem remap_go (m : Bag) :
    ∀ acc r : Bag,
      (okSomeNames m).Nodup →
      (∀ t ∈ okSomeNames m, t ∉ bagKeys acc) →
      m.foldlM remapStep acc = .ok r →
      bagKeys r = bagKeys acc ++ okSomeNames m ∧
      totalCount r + discardCount m = totalCount acc + totalCount m := by
  induction m with
  | nil =>
    intro acc r _ _ h
    have h2 : acc = r := Except.ok.inj h
    subst h2
    exact ⟨(List.append_nil _).symm, rfl⟩
  | cons p rest ih =>
    intro acc r hnd hfresh h
    rw [foldlM_remap_cons] at h
    unfold remapStep at h
    rcases hrk : remapKey p.1 with e | o
    · rw [hrk] at h
      dsimp only at h
      cases h
    · rcases o with _ | nk
      · rw [hrk] at h
        dsimp only at h
        have hok : okSomeNames (p :: rest) = okSomeNames rest := by
          simp only [okSomeNames, List.filterMap_cons, hrk]
        have hdc : discardCount (p :: rest) = p.2.data.length + discardCount rest := by
          simp only [discardCount, List.map_cons, List.sum_cons, hrk]
        rw [hok] at hnd hfresh
        obtain ⟨h1, h2⟩ := ih acc r hnd hfresh h
        refine ⟨by rw [h1, hok], ?_⟩
        rw [hdc, totalCount_cons]
        omega
      · rw [hrk] at h
        dsimp only at h
        have hok : okSomeNames (p :: rest) = nk :: okSomeNames rest := by
          simp only [okSomeNames, List.filterMap_cons, hrk]
        have hdc : discardCount (p :: rest) = 0 + discardCount rest := by
          simp only [discardCount, List.map_cons, List.sum_cons, hrk]
        rw [hok] at hnd hfresh
        rw [List.nodup_cons] at hnd
        have hnkacc : nk ∉ bagKeys acc := hfresh nk (List.mem_cons_self _ _)
        have hfresh2 : ∀ t ∈ okSomeNames rest, t ∉ bagKeys (dinsert acc nk p.2) := by
          intro t ht hmem
          rw [bagKeys_dinsert_fresh acc nk p.2 hnkacc] at hmem
          rcases List.mem_append.1 hmem with hm | hm
          · exact hfresh t (List.mem_cons_of_mem _ ht) hm
          · have ht2 : t = nk := List.mem_singleton.1 hm
            exact hnd.1 (ht2 ▸ ht)
        obtain ⟨h1, h2⟩ := ih (dinsert acc nk p.2) r hnd.2 hfresh2 h
        constructor
        · rw [h1, bagKeys_dinsert_fresh acc nk p.2 hnkacc, hok, List.append_assoc]
          rfl
        · rw [totalCount_dinsert_fresh acc nk p.2 hnkacc] at h2
          rw [hdc, totalCount_cons]
          omega

theorem cat3_ok_len (q k v f : Tensor) (h : cat3 q k v = .ok f) :
    f.data.length = q.data.length + k.data.length + v.data.length := by
  unfold cat3 at h
  split at h
  · split at h
    · have h2 := Except.ok.inj h
      subst h2
      simp
      omega
    · cases h
  · cases h

theorem fuseStep_ok_wq_inv (config : ModelArgs) (b : Bag) (key : String) (res : Bag)
    (hwq : strContains key "wq" = true)
    (h : fuseStep config b key = .ok res) :
    ∃ q kk vv q1 k1 fused,
      dget? b key = some q ∧
      dget? b (wkOf key) = some kk ∧
      dget? b (wvOf key) = some vv ∧
      permute config q config.n_head = .ok q1 ∧
      permute config kk config.n_local_heads = .ok k1 ∧
      cat3 q1 k1 vv = .ok fused ∧
      res = derase (derase (derase (dinsert b (wqkvOf key) fused) key) (wkOf key)) (wvOf key) := by
  unfold fuseStep at h
  rw [if_pos hwq] at h
  unfold getE at h
  rcases hq : dget? b key with _ | q
  · rw [hq] at h; dsimp only at h; cases h
  rw [hq] at h; dsimp only at h
  rcases hk2 : dget? b (wkOf key) with _ | kk
  · rw [hk2] at h; dsimp only at h; cases h
  rw [hk2] at h; dsimp only at h
  rcases hv2 : dget? b (wvOf key) with _ | vv
  · rw [hv2] at h; dsimp only at h; cases h
  rw [hv2] at h; dsimp only at h
  rcases hp1 : permute config q config.n_head with e | q1
  · rw [hp1] at h; dsimp only at h; cases h
  rw [hp1] at h; dsimp only at h
  rcases hp2 : permute config kk config.n_local_heads with e | k1
  · rw [hp2] at h; dsimp only at h; cases h
  rw [hp2] at h; dsimp only at h
  rcases hcat : cat3 q1 k1 vv with e | fused
  · rw [hcat] at h; dsimp only at h; cases h
  rw [hcat] at h; dsimp only at h
  exact ⟨q, kk, vv, q1, k1, fused, rfl, rfl, rfl, hp1, hp2, hcat, (Except.ok.inj h).symm⟩

theorem fuseStep_ok_effect (config : ModelArgs) (b : Bag) (key : String) (res : Bag)
    (hwq : strContains key "wq" = true)
    (hnd : (bagKeys b).Nodup)
    (hfresh : wqkvOf key ∉ bagKeys b)
    (h : fuseStep config b key = .ok res) :
    totalCount res = totalCount b ∧
    (bagKeys res).Nodup ∧
    ∀ x, x ∈ bagKeys res ↔
      (x ∈ bagKeys b ∨ x = wqkvOf key) ∧ x ≠ key ∧ x ≠ wkOf key ∧ x ≠ wvOf key := by
  obtain ⟨q, kk, vv, q1, k1, fused, hq, hk2, hv2, hp1, hp2, hcat, hres⟩ :=
    fuseStep_ok_wq_inv config b key res hwq h
  have hqk : wqkvOf key ≠ key := wqkvOf_ne_self key hwq
  have hqwk : wqkvOf key ≠ wkOf key := wqkvOf_ne_wkOf key hwq
  have hqwv : wqkvOf key ≠ wvOf key := wqkvOf_ne_wvOf key hwq
  have hkk : wkOf key ≠ key := wkOf_ne_self key hwq
  have hvk : wvOf key ≠ key := wvOf_ne_self key hwq
  have hkv : wkOf key ≠ wvOf key := wkOf_ne_wvOf key hwq
  have hnd1 : (bagKeys (dinsert b (wqkvOf key) fused)).Nodup :=
    nodup_bagKeys_dinsert_fresh b (wqkvOf key) fused hfresh hnd
  have hnd2 : (bagKeys (derase (dinsert b (wqkvOf key) fused) key)).Nodup :=
    nodup_bagKeys_derase _ key hnd1
  have hnd3 : (bagKeys (derase (derase (dinsert b (wqkvOf key) fused) key) (wkOf key))).Nodup :=
    nodup_bagKeys_derase _ (wkOf key) hnd2
  have hg1 : dget? (dinsert b (wqkvOf key) fused) key = some q := by
    rw [dget?_dinsert, if_neg hqk]
    exact hq
  have hg2 : dget? (derase (dinsert b (wqkvOf key) fused) key) (wkOf key) = some kk := by
    rw [dget?_derase_ne _ _ _ hkk, dget?_dinsert, if_neg hqwk]
    exact hk2
  have hg3 : dget? (derase (derase (dinsert b (wqkvOf key) fused) key) (wkOf key))
      (wvOf key) = some vv := by
    rw [dget?_derase_ne _ _ _ hkv.symm, dget?_derase_ne _ _ _ hvk, dget?_dinsert,
      if_neg hqwv]
    exact hv2
  have hc0 : totalCount (dinsert b (wqkvOf key) fused) = totalCount b + fused.data.length :=
    totalCount_dinsert_fresh b (wqkvOf key) fused hfresh
  have hc1 := totalCount_derase _ key q hnd1 hg1
  have hc2 := totalCount_derase _ (wkOf key) kk hnd2 hg2
  have hc3 := totalCount_derase _ (wvOf key) vv hnd3 hg3
  have hflen : fused.data.length = q.data.length + kk.data.length + vv.data.length := by
    have e1 := (permute_ok_facts config q config.n_head q1 hp1).2.1
    have e2 := (permute_ok_facts config kk config.n_local_heads k1 hp2).2.1
    have e3 := cat3_ok_len q1 k1 vv fused hcat
    omega
  refine ⟨?_, ?_, ?_⟩
  · rw [hres]
    omega
  · rw [hres]
    exact nodup_bagKeys_derase _ (wvOf key) hnd3
  · intro x
    rw [hres, mem_bagKeys_derase, mem_bagKeys_derase, mem_bagKeys_derase]
    constructor
    · rintro ⟨⟨⟨hm, hx1⟩, hx2⟩, hx3⟩
      refine ⟨?_, hx1, hx2, hx3⟩
      by_cases hxw : x = wqkvOf key
      · exact Or.inr hxw
      · left
        have hb1 : bagKeys (dinsert b (wqkvOf key) fused) = bagKeys b ++ [wqkvOf key] :=
          bagKeys_dinsert_fresh b (wqkvOf key) fused hfresh
        rw [hb1] at hm
        rcases List.mem_append.1 hm with hm2 | hm2
        · exact hm2
        · exact absurd (List.mem_singleton.1 hm2) hxw
    · rintro ⟨hm, hx1, hx2, hx3⟩
      refine ⟨⟨⟨?_, hx1⟩, hx2⟩, hx3⟩
      have hb1 : bagKeys (dinsert b (wqkvOf key) fused) = bagKeys b ++ [wqkvOf key] :=
        bagKeys_dinsert_fresh b (wqkvOf key) fused hfresh
      rw [hb1]
      rcases hm with hm | hm
      · exact List.mem_append.2 (Or.inl hm)
      · exact List.mem_append.2 (Or.inr (List.mem_singleton.2 hm))

theorem fuse_go (config : ModelArgs) :
    ∀ (todo : List String) (b r : Bag),
      (bagKeys b).Nodup →
      todo.Nodup →
      (∀ k ∈ todo, strContains k "wq" = true → wqkvOf k ∉ bagKeys b) →
      (∀ k ∈ todo, ∀ k2 ∈ todo, strContains k "wq" = true → strContains k2 "wq" = true →
        k ≠ k2 → wqkvOf k ≠ wqkvOf k2) →
      todo.foldlM (fuseStep config) b = .ok r →
      totalCount r = totalCount b ∧
      (bagKeys r).Nodup ∧
      (∀ x, x ∉ bagKeys b →
        (∀ k ∈ todo, strContains k "wq" = true → x ≠ wqkvOf k) → x ∉ bagKeys r) ∧
      (∀ k ∈ todo, strContains k "wq" = true →
        k ∉ bagKeys r ∧ wkOf k ∉ bagKeys r ∧ wvOf k ∉ bagKeys r) := by
  intro todo
  induction todo with
  | nil =>
    intro b r hnd _ _ _ h
    have h2 : b = r := Except.ok.inj h
    subst h2
    exact ⟨rfl, hnd, fun x hx _ => hx, fun k hk => absurd hk (List.not_mem_nil _)⟩
  | cons key rest ih =>
    intro b r hnd hndt hfresh hpair h
    rw [foldlM_fuse_cons] at h
    have hndt2 := List.nodup_cons.1 hndt
    by_cases hwq : strContains key "wq" = true
    · rcases hstep : fuseStep config b key with e | b2
      · rw [hstep] at h
        dsimp only at h
        cases h
      · rw [hstep] at h
        dsimp only at h
        obtain ⟨q, kk, vv, q1, k1, fused, hq, hk2, hv2, hp1, hp2, hcat, hres⟩ :=
          fuseStep_ok_wq_inv config b key b2 hwq hstep
        have hfkey : wqkvOf key ∉ bagKeys b := hfresh key (List.mem_cons_self _ _) hwq
        obtain ⟨hc1, hc2, hc3⟩ := fuseStep_ok_effect config b key b2 hwq hnd hfkey hstep
        have hfresh2 : ∀ k2 ∈ rest, strContains k2 "wq" = true →
            wqkvOf k2 ∉ bagKeys b2 := by
          intro k2 hk3 hw2 hmem
          obtain ⟨hin, _⟩ := (hc3 (wqkvOf k2)).1 hmem
          rcases hin with hin | hin
          · exact hfresh k2 (List.mem_cons_of_mem _ hk3) hw2 hin
          · have hne : k2 ≠ key := fun he => hndt2.1 (he ▸ hk3)
            exact hpair k2 (List.mem_cons_of_mem _ hk3) key (List.mem_cons_self _ _)
              hw2 hwq hne hin
        have hpair2 : ∀ k2 ∈ rest, ∀ k3 ∈ rest, strContains k2 "wq" = true →
            strContains k3 "wq" = true → k2 ≠ k3 → wqkvOf k2 ≠ wqkvOf k3 :=
          fun k2 hk3 k3 hk4 => hpair k2 (List.mem_cons_of_mem _ hk3) k3
            (List.mem_cons_of_mem _ hk4)
        obtain ⟨g1, g2, g3, g4⟩ := ih b2 r hc2 hndt2.2 hfresh2 hpair2 h
        refine ⟨by rw [g1, hc1], g2, ?_, ?_⟩
        · intro x hx hxk
          apply g3
          · intro hmem
            obtain ⟨hin, _⟩ := (hc3 x).1 hmem
            rcases hin with hin | hin
            · exact hx hin
            · exact hxk key (List.mem_cons_self _ _) hwq hin
          · exact fun k2 hk3 hw2 => hxk k2 (List.mem_cons_of_mem _ hk3) hw2
        · intro k2 hk3 hw2
          rcases List.mem_cons.1 hk3 with he | hk4
          · subst he
            have hnb1 : k2 ∉ bagKeys b2 := by
              intro hmem
              obtain ⟨_, hne, _, _⟩ := (hc3 k2).1 hmem
              exact hne rfl
            have hnb2 : wkOf k2 ∉ bagKeys b2 := by
              intro hmem
              obtain ⟨_, _, hne, _⟩ := (hc3 (wkOf k2)).1 hmem
              exact hne rfl
            have hnb3 : wvOf k2 ∉ bagKeys b2 := by
              intro hmem
              obtain ⟨_, _, _, hne⟩ := (hc3 (wvOf k2)).1 hmem
              exact hne rfl
            refine ⟨g3 k2 hnb1 ?_, g3 (wkOf k2) hnb2 ?_, g3 (wvOf k2) hnb3 ?_⟩
            · intro k3 hk5 hw3 he2
              exact hfresh k3 (List.mem_cons_of_mem _ hk5) hw3
                (he2 ▸ mem_bagKeys_of_dget? hq)
            · intro k3 hk5 hw3 he2
              exact hfresh k3 (List.mem_cons_of_mem _ hk5) hw3
                (he2 ▸ mem_bagKeys_of_dget? hk2)
            · intro k3 hk5 hw3 he2
              exact hfresh k3 (List.mem_cons_of_mem _ hk5) hw3
                (he2 ▸ mem_bagKeys_of_dget? hv2)
          · exact g4 k2 hk4 hw2
    · have hstep : fuseStep config b key = .ok b := by
        unfold fuseStep
        rw [if_neg hwq]
      rw [hstep] at h
      dsimp only at h
      obtain ⟨g1, g2, g3, g4⟩ := ih b r hnd hndt2.2
        (fun k2 hk3 => hfresh k2 (List.mem_cons_of_mem _ hk3))
        (fun k2 hk3 k3 hk4 => hpair k2 (List.mem_cons_of_mem _ hk3) k3
          (List.mem_cons_of_mem _ hk4)) h
      refine ⟨g1, g2, ?_, ?_⟩
      · exact fun x hx hxk => g3 x hx (fun k2 hk3 hw2 =>
          hxk k2 (List.mem_cons_of_mem _ hk3) hw2)
      · intro k2 hk3 hw2
        rcases List.mem_cons.1 hk3 with he | hk4
        · exact absurd (he ▸ hw2) hwq
        · exact g4 k2 hk4 hw2

theorem fuse_effects (config : ModelArgs) (b r : Bag)
    (hff : FuseFresh b) (h : fuse config b = .ok r) :
    totalCount r = totalCount b ∧
    (bagKeys r).Nodup ∧
    ∀ k ∈ bagKeys b, strContains k "wq" = true →
      k ∉ bagKeys r ∧ wkOf k ∉ bagKeys r ∧ wvOf k ∉ bagKeys r := by
  obtain ⟨hnd, hrest⟩ := hff
  unfold fuse at h
  obtain ⟨g1, g2, _, g4⟩ := fuse_go config (bagKeys b) b r hnd hnd
    (fun k hk hw => (hrest k hk hw).1)
    (fun k hk k2 hk2 hw hw2 hne => by
      rcases (hrest k2 hk2 hw2).2 k hk hw with he | hd
      · exact absurd he hne
      · exact hd.1) h
  exact ⟨g1, g2, g4⟩

/-- C7: (i) whenever the remap stage succeeds on a merged bag whose
rewrite targets are distinct and the fuse stage succeeds on the
(well-formed) remapped bag, the total element count of the final
checkpoint plus the element count of the discard-marked merged keys
equals the total element count of the merged bag — no tensor elements are
lost except those of discarded keys; (ii) a successful `permute` returns
a tensor with exactly as many elements as its input; (iii) a successful
`torch.cat([q, k, v])` returns a tensor whose element count is the sum of
the element counts of its three inputs. -/
theorem c7_element_count_invariance :
    (∀ (config : ModelArgs) (merged b final : Bag),
      (okSomeNames merged).Nodup → FuseFresh b →
      remap merged = .ok b → fuse config b = .ok final →
      totalCount final + discardCount merged = totalCount merged) ∧
    (∀ (config : ModelArgs) (w : Tensor) (n : Nat) (w2 : Tensor),
      permute config w n = .ok w2 → w2.data.length = w.data.length) ∧
    (∀ q k v f : Tensor, cat3 q k v = .ok f →
      f.data.length = q.data.length + k.data.length + v.data.length) := by
  refine ⟨?_, ?_, cat3_ok_len⟩
  · intro config merged b final hnd hff hrem hfu
    unfold remap at hrem
    obtain ⟨_, hcnt⟩ := remap_go merged [] b hnd
      (fun t _ hmem => List.not_mem_nil t hmem) hrem
    obtain ⟨hfc, _, _⟩ := fuse_effects config b final hff hfu
    have hz : totalCount ([] : Bag) = 0 := rfl
    omega
  · intro config w n w2 h
    exact (permute_ok_facts config w n w2 h).2.1

/-- C7, witness: on the end-to-end fixture, the element count of the
final checkpoint plus that of the discarded rotary buffer equals the
element count of the merged bag. -/
theorem c7_element_count_invariance_witness :
    totalCount fixtureFinal + discardCount fixtureMerged = totalCount fixtureMerged :=
  c7_element_count_invariance.1 cfgFix fixtureMerged fixtureRemapped fixtureFinal
    (by decide) (by decide) (by decide) (by decide)

/-- C8, amended: (i) the keys of a successfully remapped bag (with
distinct rewrite targets) are exactly the rewrite targets of the
non-discarded merged keys — discard-sentinel keys are removed with no
replacement; (ii) after a successful fuse over a well-formed remapped
bag, every snapshot key containing `"wq"` is gone from the final bag
together with its `wk` and `wv` counterparts.  (The unqualified claim
that no split key survives is refuted by `c8_split_key_counterexample`:
an orphan `wk`/`wv` key with no matching query key passes through
untouched.) -/
theorem c8_no_split_or_discarded_keys_amended :
    (∀ merged b : Bag, (okSomeNames merged).Nodup → remap merged = .ok b →
      bagKeys b = okSomeNames merged) ∧
    (∀ (config : ModelArgs) (b r : Bag), FuseFresh b → fuse config b = .ok r →
      ∀ k ∈ bagKeys b, strContains k "wq" = true →
        k ∉ bagKeys r ∧ wkOf k ∉ bagKeys r ∧ wvOf k ∉ bagKeys r) := by
  constructor
  · intro merged b hnd hrem
    unfold remap at hrem
    obtain ⟨hkeys, _⟩ := remap_go merged [] b hnd
      (fun t _ hmem => List.not_mem_nil t hmem) hrem
    rw [hkeys]
    rfl
  · intro config b r hff hfu
    exact (fuse_effects config b r hff hfu).2.2

/-- C8, witness: on the fixture, the remapped keys are exactly the
rewrite targets (the rotary buffer is gone with no replacement), and the
remapped query key and its `wk`/`wv` counterparts are absent from the
final checkpoint. -/
theorem c8_no_split_or_discarded_keys_amended_witness :
    bagKeys fixtureRemapped = okSomeNames fixtureMerged ∧
    "layers.0.attention.wq.weight" ∉ bagKeys fixtureFinal ∧
    wkOf "layers.0.attention.wq.weight" ∉ bagKeys fixtureFinal ∧
    wvOf "layers.0.attention.wq.weight" ∉ bagKeys fixtureFinal :=
  ⟨c8_no_split_or_discarded_keys_amended.1 fixtureMerged fixtureRemapped
      (by decide) (by decide),
    c8_no_split_or_discarded_keys_amended.2 cfgFix fixtureRemapped fixtureFinal
      (by decide) (by decide) "layers.0.attention.wq.weight" (by decide) (by decide)⟩
